import Mathlib

/-!
# Verification of the worklog session ingestion and normalization pipeline

Shallow embedding of the core of the `worklog` repository:

* `src/core/session-reader.ts` — the Claude-format adapter (`parseSessionFile`,
  `summarizeToolInput`, `truncate`, `extractText`, `extractToolUses`);
* `src/core/codex-reader.ts` — the Codex-format adapter (`parseCodexSessionFile`,
  `getEffectiveDate`, `extractFilesFromPatch`, `mapCodexToolName`,
  `summarizeCodexToolInput`);
* `src/core/db.ts` — the processing ledger (`isFileProcessed`, `markFileProcessed`)
  and the summary store (`saveSessionSummary`, `upsertProjectFromSession`);
* `src/core/session-detector.ts` — project-identity resolution
  (`resolveProjectPath`, `resolveFullPath`, `decodeProjectFolder`, `findGitRoot`,
  `stripDatePrefix`) and discovery (`findAllSessionFiles`,
  `findUnprocessedSessions`);
* `src/cli/process.ts` — the per-file processing step (`processSession`).

Modelling conventions:

* JavaScript strings are modelled as `List Char`; the helper `strL` turns a Lean
  string literal into that representation.  All string operations used by the
  source (split, trim, includes, startsWith, replace-first, …) are implemented
  below on `List Char` so that every definition is executable in the kernel.
* ISO-8601 timestamps are modelled as integers (seconds since the epoch).
  Lexicographic comparison of equal-format ISO strings agrees with numeric
  comparison of the instants they denote, and taking the `YYYY-MM-DD` prefix of
  a UTC ISO string corresponds to the floor-division day index
  `t / 86400`.  The runtime's local timezone is taken to be UTC.
* File-system probes (`existsSync`) are modelled as an explicit predicate
  `fs : List Char → Bool`; file reads that extract a recorded `cwd` are modelled
  as an oracle `cwdOf : List Char → Option (List Char)`; content hashing is an
  oracle `hashOf`.  `new Date()` at processing time is an explicit `now`
  parameter.
* `Record<string, number>` histograms are association lists preserving key
  insertion order, like JavaScript object keys; `Set<string>` is a list with
  membership-checked insertion, preserving insertion order.
-/

/-! ## JavaScript string primitives on `List Char` -/

/-- Coerce a Lean string literal to the `List Char` representation used by the
embedding. -/
def strL (s : String) : List Char := s.toList

/-- JavaScript whitespace (the characters relevant to `trim` and `\s`). -/
def isWsChar (c : Char) : Bool :=
  c == ' ' || c == '\t' || c == '\n' || c == '\r' || c == '\x0b' || c == '\x0c'

/-- `s.split(c)` for a single-character separator. -/
def splitOnC (c : Char) : List Char → List (List Char)
  | [] => [[]]
  | x :: xs =>
    if x == c then [] :: splitOnC c xs
    else
      match splitOnC c xs with
      | [] => [[x]]
      | h :: t => (x :: h) :: t

/-- `s.trim()`. -/
def trimC (l : List Char) : List Char :=
  ((l.dropWhile isWsChar).reverse.dropWhile isWsChar).reverse

/-- `s.includes(needle)`. -/
def containsSub (needle : List Char) : List Char → Bool
  | [] => needle.isEmpty
  | c :: t => needle.isPrefixOf (c :: t) || containsSub needle t

/-- `s.endsWith(suffix)`. -/
def endsWithC (suffix : List Char) (l : List Char) : Bool :=
  suffix.isSuffixOf l

/-- `s.replace(pat, rep)` — JavaScript `String.prototype.replace` with a string
pattern replaces only the first occurrence. -/
def replaceFirstC (pat rep : List Char) : List Char → List Char
  | [] => []
  | c :: t =>
    if pat.isPrefixOf (c :: t) then rep ++ (c :: t).drop pat.length
    else c :: replaceFirstC pat rep t

/-- `s.toLowerCase()` (ASCII). -/
def toLowerC (l : List Char) : List Char := l.map Char.toLower

/-- Decimal rendering of a number, for template interpolation. -/
def natToStr (n : Nat) : List Char := Nat.toDigits 10 n

/-- `parts.pop()` after a split: the last element, `[]` when absent. -/
def lastPart (ls : List (List Char)) : List Char := ls.getLastD []

/-- Truthiness of an optional string field: present and non-empty. -/
def optStrTruthy : Option (List Char) → Bool
  | some s => !s.isEmpty
  | none => false

/-! ## Effective date (codex-reader.ts `getEffectiveDate`, session-reader.ts
date derivation)

`dayOfTimestamp t` is the calendar day index of the instant `t` (seconds since
the epoch, UTC): the model of `isoString.split('T')[0]`. -/

/-- Calendar day index of a timestamp: `toISOString().split('T')[0]`. -/
def dayOfTimestamp (t : Int) : Int := t / 86400

/-- `getEffectiveDate` (codex-reader.ts:53–57): subtract 3 hours, then take the
calendar date. -/
def getEffectiveDate (t : Int) : Int := dayOfTimestamp (t - 10800)

/-! ## Patch file extraction (codex-reader.ts `extractFilesFromPatch`)

The source scans the payload with the global regex
`/\*\*\* (?:Add|Update|Delete) File:\s*(.+)/g`, repeatedly calling `exec`:
each call finds the leftmost position at or after `lastIndex` where the whole
pattern matches, and `lastIndex` then advances past the match.  `\s` matches
newlines, so when a marker is followed only by whitespace up to a line break
the greedy `\s*` crosses it and `(.+)` — one or more characters other than a
line terminator — captures the text of a following line.  When whitespace runs
from the marker to the end of the payload, the only way `(.+)` can match is by
backtracking onto a final non-line-terminator whitespace character, whose
capture trims to the empty string and is discarded; only line terminators
remain past it, so such an attempt contributes nothing, exactly like a failed
one.  Each capture is trimmed and pushed when non-empty and not already
collected (`!files.includes(filePath)`). -/

/-- A JavaScript line terminator as excluded by `.` (ASCII). -/
def isLineTerm (c : Char) : Bool := c == '\n' || c == '\r'

/-- The marker alternation `\*\*\* (?:Add|Update|Delete) File:` at the current
position: the remainder after the matched marker, `none` when no alternative
matches here. -/
def markerStripPrefix (l : List Char) : Option (List Char) :=
  if (strL "*** Add File:").isPrefixOf l then some (l.drop 13)
  else if (strL "*** Update File:").isPrefixOf l then some (l.drop 16)
  else if (strL "*** Delete File:").isPrefixOf l then some (l.drop 16)
  else none

/-- One attempt of the full pattern at the current position: the marker, then
the greedy newline-crossing `\s*`, then the greedy `(.+)` capture, which runs
from the first non-whitespace character to the next line terminator.  Returns
the trimmed capture together with the number of characters the whole match
consumed (the `lastIndex` advance); `none` when the pattern cannot produce a
non-empty trimmed capture here (no marker, or whitespace to end of input — see
the section comment). -/
def markerCaptureAt (l : List Char) : Option (List Char × Nat) :=
  match markerStripPrefix l with
  | none => none
  | some afterMarker =>
    match afterMarker.dropWhile isWsChar with
    | [] => none
    | r :: rt =>
      let cap := (r :: rt).takeWhile (fun ch => !(isLineTerm ch))
      some (trimC cap, l.length - ((r :: rt).length - cap.length))

/-- The `exec` loop of `extractFilesFromPatch`: `skip` counts the characters of
the payload still covered by the previous match (`lastIndex`); at `skip = 0` a
match attempt is made at the current position — a failed attempt advances one
character, a successful one pushes the trimmed capture when non-empty and not
already collected (`!files.includes(filePath)`) and resumes after the match. -/
def extractScanSkip : Nat → List Char → List (List Char) → List (List Char)
  | _, [], files => files
  | k + 1, _ :: t, files => extractScanSkip k t files
  | 0, c :: t, files =>
    match markerCaptureAt (c :: t) with
    | none => extractScanSkip 0 t files
    | some (p, consumed) =>
      extractScanSkip (consumed - 1) t
        (if p.isEmpty ∨ p ∈ files then files else files ++ [p])

/-- `extractFilesFromPatch` (codex-reader.ts:84–95). -/
def extractFilesFromPatch (patchContent : List Char) : List (List Char) :=
  extractScanSkip 0 patchContent []

/-- The raw sequence of non-empty trimmed captures the global regex produces on
the payload, in match order and without deduplication: the "paths appearing
after markers" that `extractFilesFromPatch` deduplicates. -/
def patchCapturesSkip : Nat → List Char → List (List Char)
  | _, [] => []
  | k + 1, _ :: t => patchCapturesSkip k t
  | 0, c :: t =>
    match markerCaptureAt (c :: t) with
    | none => patchCapturesSkip 0 t
    | some (p, consumed) =>
      if p.isEmpty then patchCapturesSkip (consumed - 1) t
      else p :: patchCapturesSkip (consumed - 1) t

def patchCaptures (patchContent : List Char) : List (List Char) :=
  patchCapturesSkip 0 patchContent

/-- Modelled from the spec: "every unique path found is surfaced as a changed
file", "each path appearing once in first-occurrence order" — the
first-occurrence deduplication of a list, used to state what
`extractFilesFromPatch` refines. -/
def firstOccurrences : List (List Char) → List (List Char)
  | [] => []
  | x :: xs => x :: firstOccurrences (xs.filter (· ≠ x))
termination_by l => l.length
decreasing_by
  simp only [List.length_cons]
  exact Nat.lt_succ_of_le (List.length_filter_le _ _)

/-! ## Tool-name normalization and input summaries -/

/-- `mapCodexToolName` (codex-reader.ts:100–108). -/
def mapCodexToolName (name : List Char) : List Char :=
  if name = strL "shell" then strL "Bash"
  else if name = strL "shell_command" then strL "Bash"
  else if name = strL "apply_patch" then strL "Edit"
  else if name = strL "update_plan" then strL "TodoWrite"
  else name

/-- `truncate` (session-reader.ts:207–210 and codex-reader.ts:138–141). -/
def truncate (s : List Char) (maxLength : Nat) : List Char :=
  if s.length ≤ maxLength then s else s.take (maxLength - 3) ++ strL "..."

/-- A Claude tool-use input record (`Record<string, unknown>`): the adapter only
reads named string-valued fields and the JSON serialization of the whole
record. -/
structure ToolInputRec where
  fields : List (List Char × List Char)
deriving DecidableEq

/-- `String(input.k || '')` — the named field, or the empty string. -/
def fieldOr (r : ToolInputRec) (k : List Char) : List Char :=
  match r.fields.lookup k with
  | some v => v
  | none => []

/-- `JSON.stringify(input)` on the modelled record (string escaping is not
modelled; only the branch structure and truncation of the source matter). -/
def jsonStringify (r : ToolInputRec) : List Char :=
  strL "\x7b" ++
    List.intercalate (strL ",")
      (r.fields.map (fun kv => strL "\"" ++ kv.1 ++ strL "\":\"" ++ kv.2 ++ strL "\"")) ++
    strL "\x7d"

/-- `summarizeToolInput` (session-reader.ts:182–205). -/
def summarizeToolInput (toolName : List Char) (input : ToolInputRec) : List Char :=
  if toolName = strL "Bash" then truncate (fieldOr input (strL "command")) 200
  else if toolName = strL "Read" then truncate (fieldOr input (strL "file_path")) 200
  else if toolName = strL "Write" ∨ toolName = strL "Edit" then
    truncate (fieldOr input (strL "file_path")) 200
  else if toolName = strL "Glob" then truncate (fieldOr input (strL "pattern")) 200
  else if toolName = strL "Grep" then truncate (fieldOr input (strL "pattern")) 200
  else if toolName = strL "Task" then truncate (fieldOr input (strL "description")) 200
  else truncate (jsonStringify input) 200

/-! ## Codex record payloads -/

/-- One element of a Codex `content` array; only `{type:'text', text}` items
carry text. -/
inductive CodexContentItem where
  | text (s : List Char)
  | nonText (itemType : List Char)
deriving DecidableEq

/-- The parse of `args.command` inside a JSON-encoded `arguments` string:
either an array (joined with spaces / indexed) or a primitive
(`String(args.command || '')`). -/
inductive JsonCommand where
  | arr (items : List (List Char))
  | prim (s : Option (List Char))
deriving DecidableEq

/-- The parsed form of a JSON `arguments` string. -/
structure ShellArgsJson where
  command : Option JsonCommand
deriving DecidableEq

/-- A raw `arguments` string together with its `JSON.parse` result (`none` when
parsing throws). -/
structure ArgsField where
  raw : List Char
  parsed : Option ShellArgsJson
deriving DecidableEq

/-- `CodexResponseItem` (codex-reader.ts:37–47); `rtype` is the `type`
discriminator string. -/
structure CodexResponseItem where
  rtype : List Char
  role : Option (List Char) := none
  content : Option (List CodexContentItem) := none
  name : Option (List Char) := none
  input : Option (List Char) := none
  arguments : Option ArgsField := none
deriving DecidableEq

/-- Truthiness of the `arguments` field (a JavaScript string: empty is falsy). -/
def argTruthy : Option ArgsField → Bool
  | some a => !a.raw.isEmpty
  | none => false

/-- `Array.isArray(args.command) ? args.command.join(' ') : String(args.command || '')`. -/
def commandToStr : Option JsonCommand → List Char
  | some (.arr items) => List.intercalate (strL " ") items
  | some (.prim (some s)) => s
  | some (.prim none) => []
  | none => []

/-- `summarizeCodexToolInput` (codex-reader.ts:113–136). -/
def summarizeCodexToolInput (name : List Char) (payload : CodexResponseItem) : List Char :=
  if (name = strL "shell" ∨ name = strL "shell_command") ∧ argTruthy payload.arguments then
    match payload.arguments with
    | some args =>
      match args.parsed with
      | some pj => truncate (commandToStr pj.command) 200
      | none => truncate args.raw 200
    | none => []
  else if name = strL "apply_patch" ∧ optStrTruthy payload.input then
    match payload.input with
    | some inp =>
      match extractFilesFromPatch inp with
      | [] => truncate inp 200
      | [f] => f
      | f :: rest => f ++ strL " (+" ++ natToStr rest.length ++ strL " more)"
    | none => []
  else []

/-- `extractTextFromContent` (codex-reader.ts:146–155): text items with truthy
text, joined by newlines. -/
def extractTextFromContent (content : Option (List CodexContentItem)) : List Char :=
  match content with
  | none => []
  | some items =>
    List.intercalate (strL "\n")
      (items.filterMap (fun it =>
        match it with
        | .text s => if s.isEmpty then none else some s
        | .nonText _ => none))

/-! ## Canonical data model (types.ts) -/

/-- The record `type` discriminator of a Claude entry and the role of a
`ParsedMessage`. -/
inductive EntryType where
  | user
  | assistant
deriving DecidableEq

/-- `ToolUse` (types.ts): normalized name, summarized input, and optionally the
raw structured input (kept for file-path extraction; its precise payload is not
read by the properties verified here, so it is modelled by the Codex response
item it came from, `none` for the Claude adapter which omits it). -/
structure ToolUse where
  name : List Char
  input : List Char
  rawInput : Option CodexResponseItem := none
deriving DecidableEq

/-- `ParsedMessage` (types.ts); `timestamp := none` models the empty-string
timestamp of legacy records. -/
structure ParsedMessage where
  mtype : EntryType
  timestamp : Option Int
  text : List Char
  toolUses : List ToolUse
deriving DecidableEq

/-- `SessionStats` (types.ts); `toolCalls` is an insertion-ordered association
list, the model of a JavaScript object used as a histogram. -/
structure SessionStats where
  userMessages : Nat
  assistantMessages : Nat
  toolCalls : List (List Char × Nat)
  totalInputTokens : Nat
  totalOutputTokens : Nat
deriving DecidableEq

/-- `ParsedSession` (types.ts); `date` is a calendar day index (see
`dayOfTimestamp`). -/
structure ParsedSession where
  sessionId : List Char
  filePath : List Char
  projectPath : List Char
  projectName : List Char
  gitBranch : List Char
  startTime : Int
  endTime : Int
  date : Int
  messages : List ParsedMessage
  stats : SessionStats
deriving DecidableEq

/-- Bump a histogram key: `tc[name] = (tc[name] || 0) + 1`. -/
def bumpTool (tc : List (List Char × Nat)) (name : List Char) : List (List Char × Nat) :=
  match tc.lookup name with
  | some n => tc.map (fun kv => if kv.1 = name then (kv.1, n + 1) else kv)
  | none => tc ++ [(name, 1)]

def bumpTools (tc : List (List Char × Nat)) (names : List (List Char)) : List (List Char × Nat) :=
  names.foldl bumpTool tc

/-- `tools[tool] || 0`. -/
def toolCount (tc : List (List Char × Nat)) (name : List Char) : Nat :=
  (tc.lookup name).getD 0

/-- Running minimum of seen timestamps (`!startTime || t < startTime`). -/
def minT (cur : Option Int) (t : Int) : Option Int :=
  match cur with
  | none => some t
  | some c => if t < c then some t else some c

/-- Running maximum of seen timestamps (`!endTime || t > endTime`). -/
def maxT (cur : Option Int) (t : Int) : Option Int :=
  match cur with
  | none => some t
  | some c => if c < t then some t else some c

/-! ## The Claude adapter (session-reader.ts) -/

/-- `TokenUsage` (types.ts); every field is read through `|| 0`, so each is
modelled as optional. -/
structure TokenUsage where
  input_tokens : Option Nat := none
  output_tokens : Option Nat := none
  cache_creation_input_tokens : Option Nat := none
  cache_read_input_tokens : Option Nat := none
deriving DecidableEq

/-- `MessageContent` (types.ts): the two historical text shapes
(`{type:'text', text}` and `{type:'text', content}`), tool uses and tool
results. -/
inductive MessageContent where
  | text (text : List Char)
  | textContentField (content : List Char)
  | tool_use (id : List Char) (name : List Char) (input : ToolInputRec)
  | tool_result
deriving DecidableEq

/-- The embedded `message` object of a Claude entry. -/
structure ClaudeMessage where
  id : Option (List Char) := none
  usage : Option TokenUsage := none
  content : Option (List MessageContent) := none
deriving DecidableEq

/-- `RawSessionEntry` (types.ts). -/
structure RawSessionEntry where
  etype : EntryType
  timestamp : Int
  uuid : List Char
  sessionId : Option (List Char) := none
  gitBranch : Option (List Char) := none
  requestId : Option (List Char) := none
  message : Option ClaudeMessage := none
deriving DecidableEq

/-- The deduplication key of `parseSessionFile` (session-reader.ts:56):
`${entry.message?.id || entry.uuid}:${entry.requestId || ''}` — the embedded
message id when present and truthy, otherwise the record uuid, joined with the
request id. -/
def dedupKey (e : RawSessionEntry) : List Char :=
  (match e.message with
   | some m =>
     match m.id with
     | some i => if i.isEmpty then e.uuid else i
     | none => e.uuid
   | none => e.uuid) ++ strL ":" ++ e.requestId.getD []

/-- `extractText` (session-reader.ts:147–159). -/
def extractText (content : Option (List MessageContent)) : List Char :=
  match content with
  | none => []
  | some items =>
    List.intercalate (strL "\n")
      (items.filterMap (fun it =>
        match it with
        | .text s => if s.isEmpty then none else some s
        | .textContentField s => if s.isEmpty then none else some s
        | _ => none))

/-- `extractToolUses` (session-reader.ts:164–177). -/
def extractToolUses (content : Option (List MessageContent)) : List ToolUse :=
  match content with
  | none => []
  | some items =>
    items.filterMap (fun it =>
      match it with
      | .tool_use _ name inp => some ⟨name, summarizeToolInput name inp, none⟩
      | _ => none)

/-- The mutable state of the `parseSessionFile` loop. -/
structure ClaudeAccum where
  messages : List ParsedMessage := []
  toolCalls : List (List Char × Nat) := []
  sessionId : List Char := []
  gitBranch : List Char := []
  startTime : Option Int := none
  endTime : Option Int := none
  totalInputTokens : Nat := 0
  totalOutputTokens : Nat := 0
  userMessages : Nat := 0
  assistantMessages : Nat := 0
  seen : List (List Char) := []
deriving DecidableEq

/-- One iteration of the `parseSessionFile` loop (session-reader.ts:54–103). -/
def claudeStep (acc : ClaudeAccum) (entry : RawSessionEntry) : ClaudeAccum :=
  let key := dedupKey entry
  if key ∈ acc.seen then acc
  else
    let a1 := { acc with seen := acc.seen ++ [key] }
    let a2 :=
      if a1.sessionId.isEmpty ∧ optStrTruthy entry.sessionId then
        { a1 with sessionId := entry.sessionId.getD [] }
      else a1
    let a3 :=
      if a2.gitBranch.isEmpty ∧ optStrTruthy entry.gitBranch then
        { a2 with gitBranch := entry.gitBranch.getD [] }
      else a2
    let a4 := { a3 with startTime := minT a3.startTime entry.timestamp,
                        endTime := maxT a3.endTime entry.timestamp }
    let a5 :=
      match entry.etype, entry.message with
      | .assistant, some m =>
        match m.usage with
        | some u =>
          { a4 with
            totalInputTokens := a4.totalInputTokens + u.input_tokens.getD 0 +
              u.cache_creation_input_tokens.getD 0 + u.cache_read_input_tokens.getD 0,
            totalOutputTokens := a4.totalOutputTokens + u.output_tokens.getD 0 }
        | none => a4
      | _, _ => a4
    let text := extractText (entry.message.bind ClaudeMessage.content)
    let toolUses := extractToolUses (entry.message.bind ClaudeMessage.content)
    let a6 := { a5 with toolCalls := bumpTools a5.toolCalls (toolUses.map ToolUse.name) }
    let a7 :=
      match entry.etype with
      | .user => { a6 with userMessages := a6.userMessages + 1 }
      | .assistant => { a6 with assistantMessages := a6.assistantMessages + 1 }
    { a7 with messages := a7.messages ++
        [⟨entry.etype, some entry.timestamp, text, toolUses⟩] }

/-- Session-id fallback shared by both adapters:
`filePath.split('/').pop()?.replace('.jsonl', '') || 'unknown'`. -/
def sessionIdFromFileName (filePath : List Char) : List Char :=
  let base := replaceFirstC (strL ".jsonl") [] (lastPart (splitOnC '/' filePath))
  if base.isEmpty then strL "unknown" else base

/-- The epilogue of `parseSessionFile` (session-reader.ts:105–141). -/
def finalizeClaude (filePath projectPath projectName : List Char) (now : Int)
    (a : ClaudeAccum) : ParsedSession :=
  let sessionId := if a.sessionId.isEmpty then sessionIdFromFileName filePath else a.sessionId
  let startTime := a.startTime.getD now
  let endTime := a.endTime.getD startTime
  { sessionId := sessionId
    filePath := filePath
    projectPath := projectPath
    projectName := projectName
    gitBranch := a.gitBranch
    startTime := startTime
    endTime := endTime
    date := dayOfTimestamp startTime
    messages := a.messages
    stats :=
      { userMessages := a.userMessages
        assistantMessages := a.assistantMessages
        toolCalls := a.toolCalls
        totalInputTokens := a.totalInputTokens
        totalOutputTokens := a.totalOutputTokens } }

/-- `parseSessionFile` (session-reader.ts:36–142), as a fold over the decoded
record stream; `now` models `new Date()` at the timestamp-fallback point. -/
def parseSessionFile (filePath projectPath projectName : List Char) (now : Int)
    (entries : List RawSessionEntry) : ParsedSession :=
  finalizeClaude filePath projectPath projectName now (entries.foldl claudeStep {})

/-! ## The Codex adapter (codex-reader.ts) -/

/-- `CodexUsage`: `info.total_token_usage` of a `token_count` event. -/
structure CodexUsage where
  input_tokens : Nat
  output_tokens : Nat
  cached_input_tokens : Option Nat := none
  reasoning_output_tokens : Option Nat := none
deriving DecidableEq

/-- The payload of a `session_meta` record (`id`, `git.branch`). -/
structure CodexSessionMeta where
  id : Option (List Char) := none
  branch : Option (List Char) := none
deriving DecidableEq

/-- The payload of an `event_msg` record; `token_count` carries
`info?.total_token_usage` when present. -/
inductive CodexEventPayload where
  | user_message (message : Option (List Char))
  | agent_message (message : Option (List Char))
  | agent_reasoning
  | token_count (usage : Option CodexUsage)
deriving DecidableEq

/-- One decoded line of a Codex session file.  `oldHeader` is the pre-October
2025 first line (`{id, git, …}` with no `type` discriminator and truthy id);
`oldFunctionCall` is the old-format top-level `function_call` record;
`otherEntry` covers `turn_context` and any record shape no branch matches
(ignored except for its timestamp). -/
inductive CodexEntry where
  | session_meta (ts : Option Int) (meta : CodexSessionMeta)
  | oldHeader (ts : Option Int) (id : List Char) (branch : Option (List Char))
  | event_msg (ts : Option Int) (payload : CodexEventPayload)
  | response_item (ts : Option Int) (payload : CodexResponseItem)
  | oldFunctionCall (ts : Option Int) (name : List Char) (args : Option ArgsField)
  | otherEntry (ts : Option Int)
deriving DecidableEq

/-- The timestamp of a Codex entry (`entry.timestamp`, absent or empty modelled
as `none`). -/
def codexTs : CodexEntry → Option Int
  | .session_meta ts _ => ts
  | .oldHeader ts _ _ => ts
  | .event_msg ts _ => ts
  | .response_item ts _ => ts
  | .oldFunctionCall ts _ _ => ts
  | .otherEntry ts => ts

/-! ### The old-format heredoc patch extraction

The source matches `shellCmd` against
`/apply_patch\s*<<\s*['"]?PATCH['"]?\n([\s\S]*?)\n\s*PATCH/`: at the leftmost
`apply_patch` occurrence whose continuation parses, the lazily-matched body up
to the first `\n\s*PATCH` terminator is captured. -/

/-- After a `'\n'`, does `\s*PATCH` match here? -/
def wsThenPatch : List Char → Bool
  | [] => false
  | c :: t => (strL "PATCH").isPrefixOf (c :: t) || (isWsChar c && wsThenPatch t)

/-- The lazily-matched heredoc body: everything up to the earliest
`\n\s*PATCH` terminator. -/
def heredocBody : List Char → Option (List Char)
  | [] => none
  | c :: t =>
    if c == '\n' && wsThenPatch t then some []
    else
      match heredocBody t with
      | some b => some (c :: b)
      | none => none

/-- An optional `'` or `"` (`['"]?`). -/
def dropQuote : List Char → List Char
  | '\'' :: t => t
  | '"' :: t => t
  | l => l

/-- Parse `\s*<<\s*['"]?PATCH['"]?\n(body)` at a position just after
`apply_patch`. -/
def parseHeredocAt (l : List Char) : Option (List Char) :=
  let l1 := l.dropWhile isWsChar
  if (strL "<<").isPrefixOf l1 then
    let l2 := (l1.drop 2).dropWhile isWsChar
    let l3 := dropQuote l2
    if (strL "PATCH").isPrefixOf l3 then
      let l4 := dropQuote (l3.drop 5)
      match l4 with
      | '\n' :: rest => heredocBody rest
      | _ => none
    else none
  else none

/-- The leftmost-match search of the heredoc regex over the shell command. -/
def extractHeredocPatch : List Char → Option (List Char)
  | [] => none
  | c :: t =>
    if (strL "apply_patch").isPrefixOf (c :: t) then
      match parseHeredocAt ((c :: t).drop 11) with
      | some body => some body
      | none => extractHeredocPatch t
    else extractHeredocPatch t

/-- Insertion into the `filesChanged` set (`Set<string>` keeps insertion
order, ignores repeats). -/
def addFileChanged (fc : List (List Char)) (f : List Char) : List (List Char) :=
  if f ∈ fc then fc else fc ++ [f]

def addFilesChanged (fc : List (List Char)) (files : List (List Char)) : List (List Char) :=
  files.foldl addFileChanged fc

/-- The mutable state of the `parseCodexSessionFile` loop. -/
structure CodexAccum where
  messages : List ParsedMessage := []
  toolCalls : List (List Char × Nat) := []
  sessionId : List Char := []
  gitBranch : List Char := []
  startTime : Option Int := none
  endTime : Option Int := none
  totalInputTokens : Nat := 0
  totalOutputTokens : Nat := 0
  userMessages : Nat := 0
  assistantMessages : Nat := 0
  filesChanged : List (List Char) := []
deriving DecidableEq

/-- The `response_item` branch (codex-reader.ts:231–274). -/
def codexResponseItemStep (acc : CodexAccum) (ts : Option Int)
    (payload : CodexResponseItem) : CodexAccum :=
  let acc1 :=
    if (payload.rtype = strL "function_call" ∨ payload.rtype = strL "custom_tool_call") ∧
        optStrTruthy payload.name then
      let name := payload.name.getD []
      let mappedName := mapCodexToolName name
      let a := { acc with toolCalls := bumpTool acc.toolCalls mappedName }
      let a :=
        if name = strL "apply_patch" ∧ optStrTruthy payload.input then
          { a with filesChanged :=
              addFilesChanged a.filesChanged (extractFilesFromPatch (payload.input.getD [])) }
        else a
      let toolUse : ToolUse :=
        ⟨mappedName, summarizeCodexToolInput name payload, some payload⟩
      { a with assistantMessages := a.assistantMessages + 1,
               messages := a.messages ++ [⟨.assistant, ts, [], [toolUse]⟩] }
    else acc
  if payload.rtype = strL "message" ∧ payload.role = some (strL "assistant") ∧
      payload.content.isSome then
    let text := extractTextFromContent payload.content
    if text.isEmpty then acc1
    else
      { acc1 with assistantMessages := acc1.assistantMessages + 1,
                  messages := acc1.messages ++ [⟨.assistant, ts, text, []⟩] }
  else acc1

/-- The old-format `function_call` branch (codex-reader.ts:278–330). -/
def codexOldFunctionCallStep (acc : CodexAccum) (ts : Option Int)
    (name : List Char) (args : Option ArgsField) : CodexAccum :=
  if name = strL "shell" ∧ argTruthy args then
    match args with
    | none => acc
    | some a =>
      match a.parsed with
      | none => acc
      | some pj =>
        match pj.command with
        | some (.arr command) =>
          if h : command.length ≥ 3 then
            let shellCmd := command.get ⟨2, by omega⟩
            if containsSub (strL "apply_patch") shellCmd then
              match extractHeredocPatch shellCmd with
              | some body =>
                let files := extractFilesFromPatch body
                { acc with
                  toolCalls := bumpTool acc.toolCalls (strL "Edit"),
                  filesChanged := addFilesChanged acc.filesChanged files,
                  assistantMessages := acc.assistantMessages + 1,
                  messages := acc.messages ++
                    [⟨.assistant, ts, [],
                      [⟨strL "Edit",
                        strL "apply_patch: " ++
                          (if (List.intercalate (strL ", ") files).isEmpty then
                            strL "file changes"
                          else List.intercalate (strL ", ") files),
                        none⟩]⟩] }
              | none => acc
            else
              { acc with
                toolCalls := bumpTool acc.toolCalls (strL "Bash"),
                assistantMessages := acc.assistantMessages + 1,
                messages := acc.messages ++
                  [⟨.assistant, ts, [],
                    [⟨strL "Bash",
                      (if (shellCmd.take 100).isEmpty then strL "shell command"
                       else shellCmd.take 100),
                      none⟩]⟩] }
          else acc
        | _ => acc
  else acc

/-- One iteration of the `parseCodexSessionFile` loop (codex-reader.ts:178–331). -/
def codexStep (acc : CodexAccum) (entry : CodexEntry) : CodexAccum :=
  let acc :=
    match codexTs entry with
    | some t => { acc with startTime := minT acc.startTime t, endTime := maxT acc.endTime t }
    | none => acc
  match entry with
  | .session_meta _ meta =>
    { acc with sessionId := meta.id.getD [], gitBranch := meta.branch.getD [] }
  | .oldHeader _ id branch =>
    { acc with sessionId := id, gitBranch := branch.getD [] }
  | .event_msg ts payload =>
    match payload with
    | .user_message message =>
      { acc with userMessages := acc.userMessages + 1,
                 messages := acc.messages ++ [⟨.user, ts, message.getD [], []⟩] }
    | .agent_message message =>
      { acc with assistantMessages := acc.assistantMessages + 1,
                 messages := acc.messages ++ [⟨.assistant, ts, message.getD [], []⟩] }
    | .token_count (some usage) =>
      { acc with
        totalInputTokens := usage.input_tokens + usage.cached_input_tokens.getD 0,
        totalOutputTokens := usage.output_tokens + usage.reasoning_output_tokens.getD 0 }
    | .token_count none => acc
    | .agent_reasoning => acc
  | .response_item ts payload => codexResponseItemStep acc ts payload
  | .oldFunctionCall ts name args => codexOldFunctionCallStep acc ts name args
  | .otherEntry _ => acc

/-- The epilogue of `parseCodexSessionFile` (codex-reader.ts:333–365): the
session-id and timestamp fallbacks, and the 3-hour-shifted effective date
derived from the final `endTime`. -/
def finalizeCodex (filePath projectPath projectName : List Char) (now : Int)
    (a : CodexAccum) : ParsedSession :=
  let sessionId := if a.sessionId.isEmpty then sessionIdFromFileName filePath else a.sessionId
  let startTime := a.startTime.getD now
  let endTime := a.endTime.getD startTime
  { sessionId := sessionId
    filePath := filePath
    projectPath := projectPath
    projectName := projectName
    gitBranch := a.gitBranch
    startTime := startTime
    endTime := endTime
    date := getEffectiveDate endTime
    messages := a.messages
    stats :=
      { userMessages := a.userMessages
        assistantMessages := a.assistantMessages
        toolCalls := a.toolCalls
        totalInputTokens := a.totalInputTokens
        totalOutputTokens := a.totalOutputTokens } }

/-- `parseCodexSessionFile` (codex-reader.ts:160–366), as a fold over the
decoded record stream. -/
def parseCodexSessionFile (filePath projectPath projectName : List Char) (now : Int)
    (entries : List CodexEntry) : ParsedSession :=
  finalizeCodex filePath projectPath projectName now (entries.foldl codexStep {})

/-! ## The processing ledger (db.ts `processed_files`) -/

/-- `DBProcessedFile` (types.ts): one row of the `processed_files` table,
keyed by `file_path`. -/
structure DBProcessedFile where
  file_path : List Char
  file_hash : List Char
  processed_at : List Char
deriving DecidableEq

/-- The `processed_files` table, in row order. -/
abbrev ProcessedFiles := List DBProcessedFile

/-- `SELECT * FROM processed_files WHERE file_path = ?` followed by `.get`. -/
def lookupProcessed (pf : ProcessedFiles) (filePath : List Char) : Option DBProcessedFile :=
  pf.find? (fun r => r.file_path = filePath)

/-- `isFileProcessed` (db.ts:74–81): a row exists for the path and its recorded
hash equals the given hash. -/
def isFileProcessed (pf : ProcessedFiles) (filePath fileHash : List Char) : Bool :=
  match lookupProcessed pf filePath with
  | some row => row.file_hash = fileHash
  | none => false

/-- `markFileProcessed` (db.ts:83–90): `INSERT OR REPLACE` keyed by the
`file_path` primary key (the REPLACE conflict resolution deletes the old row
and inserts the new one); `nowStr` models `new Date().toISOString()`. -/
def markFileProcessed (pf : ProcessedFiles) (filePath fileHash nowStr : List Char) :
    ProcessedFiles :=
  pf.filter (fun r => ¬ r.file_path = filePath) ++ [⟨filePath, fileHash, nowStr⟩]

/-! ## Project-identity resolution (session-detector.ts) -/

/-- `path.dirname` for the absolute paths walked by `findGitRoot`: strip
trailing separators, drop the last segment, strip its separators; the root
stays `/` and a separator-free name maps to `.`. -/
def dirnameC (p : List Char) : List Char :=
  let r3 := (((p.reverse.dropWhile (· == '/')).dropWhile (fun c => ¬ c = '/')).dropWhile (· == '/'))
  if r3.isEmpty then (if p.headD ' ' == '/' then strL "/" else strL ".") else r3.reverse

/-- The upward walk of `findGitRoot` (session-detector.ts:12–26), with explicit
fuel: each loop iteration either strictly shortens the path or stops, so
`path.length + 1` iterations always suffice. -/
def findGitRootGo (fs : List Char → Bool) : Nat → List Char → Option (List Char)
  | 0, _ => none
  | fuel + 1, current =>
    if current = strL "/" then none
    else if fs (current ++ strL "/.git") then some current
    else
      let parent := dirnameC current
      if parent = current then none
      else findGitRootGo fs fuel parent

/-- `findGitRoot` (session-detector.ts:12–26): walk up from `path` until a
directory containing `.git` is found. -/
def findGitRoot (fs : List Char → Bool) (path : List Char) : Option (List Char) :=
  findGitRootGo fs (path.length + 1) path

/-- The candidate built by iteration `i` of the `resolveFullPath` loop: the
first `i` parts joined as directories, the rest re-joined with dashes. -/
def mkFullCand (parts : List (List Char)) (i : Nat) : List Char :=
  strL "/" ++ List.intercalate (strL "/") (parts.take i) ++ strL "/" ++
    List.intercalate (strL "-") (parts.drop i)

/-- The loop of `resolveFullPath` (session-detector.ts:66–78): `i` runs from
`parts.length - 1` down to `1`, returning the first candidate that exists. -/
def resolveFullPathGo (fs : List Char → Bool) (parts : List (List Char)) :
    Nat → Option (List Char)
  | 0 => none
  | i + 1 =>
    let fullPath := mkFullCand parts (i + 1)
    if fs fullPath then some fullPath else resolveFullPathGo fs parts i

/-- `resolveFullPath` (session-detector.ts:60–90).  `cwd` models the lazy
fallback read `sessionFilePath && existsSync(sessionFilePath) &&
extractCwdFromSessionFile(sessionFilePath)`: `some c` when a session file was
supplied, exists and records a working directory `c`. -/
def resolveFullPath (fs : List Char → Bool) (encodedPath : List Char)
    (cwd : Option (List Char)) : List Char :=
  let parts := splitOnC '-' encodedPath
  match resolveFullPathGo fs parts (parts.length - 1) with
  | some p => p
  | none =>
    match cwd with
    | some c => c
    | none => strL "/" ++ encodedPath.map (fun c => if c = '-' then '/' else c)

/-- The candidate built by iteration `splitCount` of the `resolveProjectPath`
loop: all dashes literal at `0`, the last `splitCount` parts split off as
subdirectories otherwise. -/
def mkProjCand (basePath projectPart : List Char) (parts : List (List Char))
    (splitCount : Nat) : List Char :=
  if splitCount = 0 then basePath ++ strL "/" ++ projectPart
  else
    basePath ++ strL "/" ++
      List.intercalate (strL "-") (parts.take (parts.length - splitCount)) ++ strL "/" ++
      List.intercalate (strL "/") (parts.drop (parts.length - splitCount))

/-- The loop of `resolveProjectPath` (session-detector.ts:130–148):
`splitCount` ascends from `sc`, with `fuel` iterations remaining; when the loop
ends without a hit the literal interpretation is returned. -/
def resolveProjectPathGo (fs : List Char → Bool) (basePath projectPart : List Char)
    (parts : List (List Char)) : Nat → Nat → List Char
  | _, 0 => basePath ++ strL "/" ++ projectPart
  | sc, fuel + 1 =>
    let path := mkProjCand basePath projectPart parts sc
    if fs path then path else resolveProjectPathGo fs basePath projectPart parts (sc + 1) fuel

/-- `resolveProjectPath` (session-detector.ts:124–152): try interpretations
from all-dashes-literal to all-dashes-as-separators, returning the first that
exists, with the literal interpretation as fallback. -/
def resolveProjectPath (fs : List Char → Bool) (basePath projectPart : List Char) : List Char :=
  let parts := splitOnC '-' projectPart
  resolveProjectPathGo fs basePath projectPart parts 0 parts.length

/-- `stripDatePrefix` (session-detector.ts:180–182): remove a leading
`YYYY-MM-DD-`. -/
def stripDatePrefix (name : List Char) : List Char :=
  match name with
  | y1 :: y2 :: y3 :: y4 :: '-' :: m1 :: m2 :: '-' :: d1 :: d2 :: '-' :: rest =>
    if [y1, y2, y3, y4, m1, m2, d1, d2].all Char.isDigit then rest else name
  | _ => name

/-- `withoutLeading.replace(/--/g, '/.')`: hidden-folder decoding for paths
outside the recognized src markers. -/
def replaceDoubleDash : List Char → List Char
  | '-' :: '-' :: t => '/' :: '.' :: replaceDoubleDash t
  | c :: t => c :: replaceDoubleDash t
  | [] => []

/-- The common epilogue of `decodeProjectFolder` (session-detector.ts:217–242):
home-directory sentinel, git-root canonicalization, date-prefix stripping for
`src/tries` projects. -/
def decodeProjectEpilogue (fs : List Char → Bool) (home : List Char)
    (decodedPath : List Char) (isTriesProject : Bool) : List Char × List Char :=
  if decodedPath = home then (decodedPath, strL "~")
  else
    match (if fs decodedPath then findGitRoot fs decodedPath else none) with
    | some gitRoot =>
      let pn0 := lastPart (splitOnC '/' gitRoot)
      let pn1 := if pn0.isEmpty then strL "unknown" else pn0
      (gitRoot, if isTriesProject then stripDatePrefix pn1 else pn1)
    | none =>
      let pn0 := lastPart (splitOnC '/' decodedPath)
      let pn1 := if pn0.isEmpty then strL "unknown" else pn0
      (decodedPath, if isTriesProject then stripDatePrefix pn1 else pn1)

/-- The `^(Users-[^-]+-src-a)-(.+)$` (resp. `src-tries`) match on the folder
name without its leading dash: `[^-]+` is exactly one non-empty dash-free
segment, so the regex corresponds to this shape test on the dash-split parts;
`(.+)` requires the re-joined remainder to be non-empty.  Returns the base path
and the project part on success. -/
def matchSrcMarker (marker : List Char) (parts : List (List Char)) :
    Option (List Char × List Char) :=
  match parts with
  | p0 :: p1 :: p2 :: p3 :: rest =>
    if p0 = strL "Users" ∧ ¬ p1.isEmpty ∧ p2 = strL "src" ∧ p3 = marker ∧
        rest ≠ [] ∧ rest ≠ [[]] then
      some (strL "/" ++ List.intercalate (strL "/") [p0, p1, p2, p3],
            List.intercalate (strL "-") rest)
    else none
  | _ => none

/-- `decodeProjectFolder` (session-detector.ts:184–243).  `cwdOfProbe` models
the recorded working directory recovered from the probe session file, as in
`resolveFullPath`. -/
def decodeProjectFolder (fs : List Char → Bool) (home : List Char)
    (folderName : List Char) (cwdOfProbe : Option (List Char)) : List Char × List Char :=
  let withoutLeading := folderName.drop 1
  let parts := splitOnC '-' withoutLeading
  match matchSrcMarker (strL "a") parts with
  | some bp => decodeProjectEpilogue fs home (resolveProjectPath fs bp.1 bp.2) false
  | none =>
    match matchSrcMarker (strL "tries") parts with
    | some bp => decodeProjectEpilogue fs home (resolveProjectPath fs bp.1 bp.2) true
    | none =>
      let withHiddenFolders := replaceDoubleDash withoutLeading
      decodeProjectEpilogue fs home (resolveFullPath fs withHiddenFolders cwdOfProbe) false

/-! ## Session discovery (session-detector.ts `findAllSessionFiles`,
`findUnprocessedSessions`) -/

/-- `SessionSource` (types.ts). -/
inductive SessionSource where
  | claude
  | codex
deriving DecidableEq

/-- `SessionFile` (types.ts). -/
structure SessionFile where
  path : List Char
  projectPath : List Char
  projectName : List Char
  sessionId : List Char
  modifiedAt : Int
  fileHash : List Char
  source : SessionSource
deriving DecidableEq

/-- One discovered project folder: its name and its directory listing with
modification times (the result of `readdirSync` + `statSync`, directories
already filtered as in the source). -/
structure FolderEntry where
  name : List Char
  files : List (List Char × Int)
deriving DecidableEq

/-- `path.join` for the absolute, separator-free-component paths built here. -/
def joinPath (a b : List Char) : List Char := a ++ strL "/" ++ b

/-- The body of the per-folder loop of `findAllSessionFiles`
(session-detector.ts:279–307): filter to `.jsonl` files, skip empty folders,
decode the project identity once using the first session file as probe, and
emit one record per file reusing that identity. -/
def sessionFilesOfFolder (fs : List Char → Bool)
    (cwdOf : List Char → Option (List Char)) (home projectsDir : List Char)
    (folder : FolderEntry) : List SessionFile :=
  let files := folder.files.filter (fun f => endsWithC (strL ".jsonl") f.1)
  match files with
  | [] => []
  | first :: _ =>
    let firstSessionPath := joinPath (joinPath projectsDir folder.name) first.1
    let pr := decodeProjectFolder fs home folder.name (cwdOf firstSessionPath)
    files.map (fun f =>
      { path := joinPath (joinPath projectsDir folder.name) f.1
        projectPath := pr.1
        projectName := pr.2
        sessionId := replaceFirstC (strL ".jsonl") [] f.1
        modifiedAt := f.2
        fileHash := []
        source := .claude })

/-- Insertion step of the newest-first sort
(`sessions.sort((a, b) => b.modifiedAt - a.modifiedAt)`). -/
def insertByMtime (s : SessionFile) : List SessionFile → List SessionFile
  | [] => [s]
  | x :: xs => if x.modifiedAt ≤ s.modifiedAt then s :: x :: xs else x :: insertByMtime s xs

/-- Sort the discovered sessions by modification time, newest first. -/
def sortByMtimeDesc (l : List SessionFile) : List SessionFile :=
  l.foldr insertByMtime []

/-- `findAllSessionFiles` (session-detector.ts:270–314) over one `projects`
directory listing `folders`. -/
def findAllSessionFiles (fs : List Char → Bool)
    (cwdOf : List Char → Option (List Char)) (home projectsDir : List Char)
    (folders : List FolderEntry) : List SessionFile :=
  sortByMtimeDesc (folders.flatMap (sessionFilesOfFolder fs cwdOf home projectsDir))

/-- `findUnprocessedSessions` (session-detector.ts:319–344): compute every
file's content hash (`hashOf` models `computeFileHash`), and unless `force` is
set keep exactly the files the ledger gate does not recognize. -/
def findUnprocessedSessions (fs : List Char → Bool)
    (cwdOf : List Char → Option (List Char)) (home projectsDir : List Char)
    (folders : List FolderEntry) (hashOf : List Char → List Char)
    (pf : ProcessedFiles) (force : Bool) : List SessionFile :=
  let allSessions := (findAllSessionFiles fs cwdOf home projectsDir folders).map
    (fun s => { s with fileHash := hashOf s.path })
  if force then allSessions
  else allSessions.filter (fun s => ¬ isFileProcessed pf s.path s.fileHash)

/-! ## The summary store and the per-session processing step
(db.ts `saveSessionSummary`, `upsertProjectFromSession`; process.ts
`processSession`) -/

/-- `SessionSummary` (types.ts): the external summarizer's output. -/
structure SessionSummary where
  shortSummary : List Char
  accomplishments : List (List Char)
  filesChanged : List (List Char)
  toolsUsed : List (List Char)
deriving DecidableEq

/-- One row of `session_summaries`, keyed by the unique `session_id`. -/
structure SummaryRow where
  session_id : List Char
  project_path : List Char
  project_name : List Char
  git_branch : List Char
  start_time : Int
  end_time : Int
  date : Int
  short_summary : List Char
  accomplishments : List (List Char)
  tools_used : List (List Char)
  files_changed : List (List Char)
  statsStored : SessionStats
  source : SessionSource
  processed_at : List Char
deriving DecidableEq

/-- One row of `projects`, keyed by `project_path`. -/
structure ProjectRow where
  project_path : List Char
  project_name : List Char
  status : List Char
  first_session_date : Int
  last_session_date : Int
  total_sessions : Nat
  created_at : List Char
  updated_at : List Char
deriving DecidableEq

/-- The stores `processSession` touches. -/
structure WorklogDB where
  processed_files : ProcessedFiles
  session_summaries : List SummaryRow
  projects : List ProjectRow
deriving DecidableEq

/-- `saveSessionSummary` (db.ts / part_001:139–168): `INSERT OR REPLACE` keyed
by the unique `session_id`. -/
def saveSessionSummary (rows : List SummaryRow) (session : ParsedSession)
    (summary : SessionSummary) (source : SessionSource) (nowStr : List Char) :
    List SummaryRow :=
  rows.filter (fun r => ¬ r.session_id = session.sessionId) ++
    [{ session_id := session.sessionId
       project_path := session.projectPath
       project_name := session.projectName
       git_branch := session.gitBranch
       start_time := session.startTime
       end_time := session.endTime
       date := session.date
       short_summary := summary.shortSummary
       accomplishments := summary.accomplishments
       tools_used := summary.toolsUsed
       files_changed := summary.filesChanged
       statsStored := session.stats
       source := source
       processed_at := nowStr }]

/-- `upsertProjectFromSession` (db.ts / part_001:418–447): insert or update the
`projects` row for the path; `total_sessions` re-counts the summary rows for
the path, as the SQL subquery does. -/
def upsertProjectFromSession (projects : List ProjectRow) (rows : List SummaryRow)
    (projectPath projectName : List Char) (sessionDate : Int) (nowStr : List Char) :
    List ProjectRow :=
  let countFor := (rows.filter (fun r => r.project_path = projectPath)).length
  match projects.find? (fun p => p.project_path = projectPath) with
  | some _ =>
    projects.map (fun p =>
      if p.project_path = projectPath then
        { p with
          project_name := if projectName.isEmpty then p.project_name else projectName
          first_session_date := min p.first_session_date sessionDate
          last_session_date := max p.last_session_date sessionDate
          total_sessions := countFor
          updated_at := nowStr }
      else p)
  | none =>
    projects ++ [{ project_path := projectPath
                   project_name := projectName
                   status := strL "in_progress"
                   first_session_date := sessionDate
                   last_session_date := sessionDate
                   total_sessions := 1
                   created_at := nowStr
                   updated_at := nowStr }]

/-- The date filter of the `process` command (`-d` / `-w`). -/
inductive DateFilter where
  | byDate (value : Int)
  | byRange (startDate stopDate : Int)
deriving DecidableEq

/-- `isDateInRange` (process.ts / part_002:77–79). -/
def isDateInRange (date startDate stopDate : Int) : Bool :=
  startDate ≤ date ∧ date ≤ stopDate

/-- The raw decoded content of one session file, which also determines the
dispatch (`sessionFile.source === 'codex'`). -/
inductive SessionData where
  | claudeData (entries : List RawSessionEntry)
  | codexData (entries : List CodexEntry)

/-- The source tag of the decoded data. -/
def sourceOf : SessionData → SessionSource
  | .claudeData _ => .claude
  | .codexData _ => .codex

/-- The parse dispatch of `processSession` (part_002:245–255). -/
def parsedOf (sf : SessionFile) (now : Int) (data : SessionData) : ParsedSession :=
  match data with
  | .claudeData es => parseSessionFile sf.path sf.projectPath sf.projectName now es
  | .codexData es => parseCodexSessionFile sf.path sf.projectPath sf.projectName now es

/-- `codeChangeTools` (part_002:286): the only tools that count as actual
work. -/
def codeChangeTools : List (List Char) :=
  [strL "Edit", strL "Write", strL "NotebookEdit", strL "MultiEdit"]

/-- `hasCodeChanges` (part_002:287). -/
def hasCodeChanges (tc : List (List Char × Nat)) : Bool :=
  codeChangeTools.any (fun tool => 0 < toolCount tc tool)

/-- `noWorkPhrases` (part_002:311–314). -/
def noWorkPhrases : List (List Char) :=
  [strL "no work", strL "no coding", strL "was interrupted", strL "no substantive",
   strL "minimal progress", strL "minimal activity", strL "no significant",
   strL "nothing was accomplished"]

/-- `noWorkPhrases.some(phrase => summaryLower.includes(phrase))`. -/
def containsAnyPhrase (s : List Char) (phrases : List (List Char)) : Bool :=
  phrases.any (fun p => containsSub p s)

/-- The result record of `processSession`. -/
structure ProcResult where
  date : Int
  startTime : Int
  endTime : Int
  summary : List Char
  skipped : Bool
  filtered : Bool
deriving DecidableEq

/-- Whether the parsed date passes the active date filter (part_002:262–267). -/
def dateFilterPasses (df : Option DateFilter) (date : Int) : Bool :=
  match df with
  | some (.byDate v) => date = v
  | some (.byRange a b) => isDateInRange date a b
  | none => true

/-- `processSession` (part_002:232–341) as a transformer of the stores:
the external LLM call is the `summarizer` oracle; file reading is the given
decoded `data`. -/
def processSession (summarizer : ParsedSession → SessionSummary) (sf : SessionFile)
    (data : SessionData) (df : Option DateFilter) (now : Int) (nowStr : List Char)
    (db : WorklogDB) : WorklogDB × ProcResult :=
  let parsed := parsedOf sf now data
  if ¬ dateFilterPasses df parsed.date then
    (db, ⟨parsed.date, parsed.startTime, parsed.endTime, [], false, true⟩)
  else if ¬ hasCodeChanges parsed.stats.toolCalls then
    ({ db with processed_files := markFileProcessed db.processed_files sf.path sf.fileHash nowStr },
     ⟨parsed.date, parsed.startTime, parsed.endTime, [], true, false⟩)
  else
    let summary := summarizer parsed
    if containsAnyPhrase (toLowerC summary.shortSummary) noWorkPhrases then
      ({ db with processed_files := markFileProcessed db.processed_files sf.path sf.fileHash nowStr },
       ⟨parsed.date, parsed.startTime, parsed.endTime, [], true, false⟩)
    else
      let rows := saveSessionSummary db.session_summaries parsed summary (sourceOf data) nowStr
      ({ processed_files := markFileProcessed db.processed_files sf.path sf.fileHash nowStr
         session_summaries := rows
         projects := upsertProjectFromSession db.projects rows parsed.projectPath
           parsed.projectName parsed.date nowStr },
       ⟨parsed.date, parsed.startTime, parsed.endTime, summary.shortSummary, false, false⟩)

/-! ## Spec-side definitions used to state the claims -/

/-- The usage snapshot carried by a token-count event, when the entry is one
(`payload.type === 'token_count' && payload.info?.total_token_usage`). -/
def tokenUsageOf : CodexEntry → Option CodexUsage
  | .event_msg _ (.token_count (some u)) => some u
  | _ => none

/-- The raw Codex source-tool names that `mapCodexToolName` recognizes and
rewrites. -/
def rawCodexToolNames : List (List Char) :=
  [strL "shell", strL "shell_command", strL "apply_patch", strL "update_plan"]

/-- Modelled from the spec: the shared normalized tool vocabulary — the Claude
tool names this system itself reads back (the summary cases of
`summarizeToolInput`, the work filter `codeChangeTools`, and the targets of
`mapCodexToolName`). -/
def normalizedToolVocabulary : List (List Char) :=
  [strL "Bash", strL "Read", strL "Write", strL "Edit", strL "Glob", strL "Grep",
   strL "Task", strL "NotebookEdit", strL "MultiEdit", strL "TodoWrite"]

/-- The candidate list that the `resolveFullPath` loop actually probes, in
probe order: `i = parts.length - 1` down to `1`, i.e. from every delimiter a
separator towards the most literal splittable interpretation. -/
def fullCandList (parts : List (List Char)) : List (List Char) :=
  (List.range' 1 (parts.length - 1)).reverse.map (mkFullCand parts)

/-- The candidate list that the `resolveProjectPath` loop probes, in probe
order: `splitCount = 0` (all delimiters literal) up to `parts.length - 1`
(all delimiters separators). -/
def projCandList (basePath projectPart : List Char) (parts : List (List Char)) :
    List (List Char) :=
  (List.range parts.length).map (mkProjCand basePath projectPart parts)

/-- Modelled from the spec: "tries candidate reinterpretations in order from
treating every delimiter as a literal character to treating every delimiter as
a path separator, returning the first candidate that exists; when no candidate
exists it falls back (after consulting the session file's recorded working
directory, when available) to the literal delimiter-to-separator substitution"
— the same candidate shapes and fallbacks as `resolveFullPath`, but probed in
the claimed most-literal-first order. -/
def specLiteralFirstResolve (fs : List Char → Bool) (encodedPath : List Char)
    (cwd : Option (List Char)) : List Char :=
  let parts := splitOnC '-' encodedPath
  match ((List.range' 1 (parts.length - 1)).map (mkFullCand parts)).find? fs with
  | some p => p
  | none =>
    match cwd with
    | some c => c
    | none => strL "/" ++ encodedPath.map (fun c => if c = '-' then '/' else c)

/-! # Theorems -/

/-! ## C4 — the incremental-reprocessing gate -/

theorem lookupProcessed_markFileProcessed (pf : ProcessedFiles) (p h t q : List Char) :
    lookupProcessed (markFileProcessed pf p h t) q =
      if q = p then some ⟨p, h, t⟩ else lookupProcessed pf q := by
  by_cases hq : q = p
  · subst hq
    induction pf with
    | nil => simp [markFileProcessed, lookupProcessed, List.find?]
    | cons r rs ih =>
      by_cases hr : r.file_path = q <;>
        simp_all [markFileProcessed, lookupProcessed, List.find?, hr]
  · have hpq : ¬ p = q := fun hh => hq hh.symm
    induction pf with
    | nil => simp [markFileProcessed, lookupProcessed, List.find?, hq, hpq]
    | cons r rs ih =>
      by_cases hr : r.file_path = p
      · have hrq : ¬ r.file_path = q := by rw [hr]; exact hpq
        simp_all [markFileProcessed, lookupProcessed, List.find?, hr, hrq]
      · by_cases hrq : r.file_path = q <;>
          simp_all [markFileProcessed, lookupProcessed, List.find?, hr, hrq]

/-- C4: a file is selected by `findUnprocessedSessions` (without `--force`) if
and only if it is a discovered session file whose current content hash differs
from the last hash recorded for its path, or no hash was ever recorded for the
path; and `markFileProcessed` is idempotent — a redundant second call with the
same (path, hash) pair changes no `isFileProcessed` answer. -/
theorem c4_reprocessing_gate_iff_and_mark_idempotent :
    (∀ (fs : List Char → Bool) (cwdOf : List Char → Option (List Char))
       (home projectsDir : List Char) (folders : List FolderEntry)
       (hashOf : List Char → List Char) (pf : ProcessedFiles) (s : SessionFile),
       s ∈ findUnprocessedSessions fs cwdOf home projectsDir folders hashOf pf false ↔
         (s ∈ (findAllSessionFiles fs cwdOf home projectsDir folders).map
             (fun x => { x with fileHash := hashOf x.path }) ∧
          match lookupProcessed pf s.path with
          | some row => ¬ row.file_hash = s.fileHash
          | none => True)) ∧
    (∀ (pf : ProcessedFiles) (p h t1 t2 q qh : List Char),
       isFileProcessed (markFileProcessed (markFileProcessed pf p h t1) p h t2) q qh =
         isFileProcessed (markFileProcessed pf p h t1) q qh) := by
  constructor
  · intro fs cwdOf home projectsDir folders hashOf pf s
    simp only [findUnprocessedSessions, Bool.false_eq_true, if_false, List.mem_filter]
    constructor
    · rintro ⟨hmem, hgate⟩
      refine ⟨hmem, ?_⟩
      simp only [decide_eq_true_eq] at hgate
      unfold isFileProcessed at hgate
      cases hl : lookupProcessed pf s.path with
      | none => trivial
      | some row => simp_all
    · rintro ⟨hmem, hgate⟩
      refine ⟨hmem, ?_⟩
      simp only [decide_eq_true_eq]
      unfold isFileProcessed
      cases hl : lookupProcessed pf s.path with
      | none => simp
      | some row => simp_all
  · intro pf p h t1 t2 q qh
    simp only [isFileProcessed, lookupProcessed_markFileProcessed]
    by_cases hq : q = p <;> simp [hq]


/-! ## C2 — token-count events replace, not accumulate -/

theorem codexResponseItemStep_totals (acc : CodexAccum) (ts : Option Int)
    (payload : CodexResponseItem) :
    (codexResponseItemStep acc ts payload).totalInputTokens = acc.totalInputTokens ∧
    (codexResponseItemStep acc ts payload).totalOutputTokens = acc.totalOutputTokens := by
  unfold codexResponseItemStep
  repeat' split
  all_goals simp [apply_ite CodexAccum.totalInputTokens, apply_ite CodexAccum.totalOutputTokens]

theorem codexOldFunctionCallStep_totals (acc : CodexAccum) (ts : Option Int)
    (name : List Char) (args : Option ArgsField) :
    (codexOldFunctionCallStep acc ts name args).totalInputTokens = acc.totalInputTokens ∧
    (codexOldFunctionCallStep acc ts name args).totalOutputTokens = acc.totalOutputTokens := by
  unfold codexOldFunctionCallStep
  repeat' split
  all_goals simp [apply_ite CodexAccum.totalInputTokens, apply_ite CodexAccum.totalOutputTokens]
  all_goals refine ⟨fun _ => ?_, fun _ => ?_⟩
  all_goals (split <;> rfl)

theorem codexStep_totals_of_no_token (acc : CodexAccum) (e : CodexEntry)
    (h : tokenUsageOf e = none) :
    (codexStep acc e).totalInputTokens = acc.totalInputTokens ∧
    (codexStep acc e).totalOutputTokens = acc.totalOutputTokens := by
  cases e with
  | session_meta ts meta => cases ts <;> simp [codexStep, codexTs]
  | oldHeader ts id branch => cases ts <;> simp [codexStep, codexTs]
  | event_msg ts payload =>
    cases payload with
    | user_message m => cases ts <;> simp [codexStep, codexTs]
    | agent_message m => cases ts <;> simp [codexStep, codexTs]
    | agent_reasoning => cases ts <;> simp [codexStep, codexTs]
    | token_count u =>
      cases u with
      | none => cases ts <;> simp [codexStep, codexTs]
      | some usage => simp [tokenUsageOf] at h
  | response_item ts payload =>
    cases ts with
    | none =>
      simpa [codexStep, codexTs] using codexResponseItemStep_totals acc none payload
    | some t =>
      simpa [codexStep, codexTs] using
        codexResponseItemStep_totals
          { acc with startTime := minT acc.startTime t, endTime := maxT acc.endTime t }
          (some t) payload
  | oldFunctionCall ts name args =>
    cases ts with
    | none =>
      simpa [codexStep, codexTs] using codexOldFunctionCallStep_totals acc none name args
    | some t =>
      simpa [codexStep, codexTs] using
        codexOldFunctionCallStep_totals
          { acc with startTime := minT acc.startTime t, endTime := maxT acc.endTime t }
          (some t) name args
  | otherEntry ts => cases ts <;> simp [codexStep, codexTs]

theorem codexFold_totals_of_no_token (l : List CodexEntry) (acc : CodexAccum)
    (h : ∀ e ∈ l, tokenUsageOf e = none) :
    (l.foldl codexStep acc).totalInputTokens = acc.totalInputTokens ∧
    (l.foldl codexStep acc).totalOutputTokens = acc.totalOutputTokens := by
  induction l generalizing acc with
  | nil => exact ⟨rfl, rfl⟩
  | cons e t ih =>
    have he := codexStep_totals_of_no_token acc e (h e (List.mem_cons_self e t))
    have ht := ih (codexStep acc e) (fun x hx => h x (List.mem_cons_of_mem e hx))
    simp only [List.foldl_cons]
    exact ⟨ht.1.trans he.1, ht.2.trans he.2⟩

theorem codexStep_token_sets (acc : CodexAccum) (ts : Option Int) (u : CodexUsage) :
    (codexStep acc (.event_msg ts (.token_count (some u)))).totalInputTokens =
      u.input_tokens + u.cached_input_tokens.getD 0 ∧
    (codexStep acc (.event_msg ts (.token_count (some u)))).totalOutputTokens =
      u.output_tokens + u.reasoning_output_tokens.getD 0 := by
  cases ts <;> simp [codexStep, codexTs]

/-- C2: the final token totals of `parseCodexSessionFile` are exactly the
totals carried by the last usage-carrying token-count event — input plus cached
input, and output plus reasoning output — regardless of any earlier
token-count events: later snapshots replace, they do not accumulate. -/
theorem c2_token_count_replaces :
    ∀ (filePath projectPath projectName : List Char) (now : Int)
      (l1 l2 : List CodexEntry) (ts : Option Int) (u : CodexUsage),
      (∀ e ∈ l2, tokenUsageOf e = none) →
      (parseCodexSessionFile filePath projectPath projectName now
          (l1 ++ [.event_msg ts (.token_count (some u))] ++ l2)).stats.totalInputTokens =
        u.input_tokens + u.cached_input_tokens.getD 0 ∧
      (parseCodexSessionFile filePath projectPath projectName now
          (l1 ++ [.event_msg ts (.token_count (some u))] ++ l2)).stats.totalOutputTokens =
        u.output_tokens + u.reasoning_output_tokens.getD 0 := by
  intro filePath projectPath projectName now l1 l2 ts u h2
  unfold parseCodexSessionFile finalizeCodex
  simp only [List.foldl_append, List.foldl_cons, List.foldl_nil]
  have hset := codexStep_token_sets (l1.foldl codexStep {}) ts u
  have hkeep := codexFold_totals_of_no_token l2
    (codexStep (l1.foldl codexStep {}) (.event_msg ts (.token_count (some u)))) h2
  exact ⟨hkeep.1.trans hset.1, hkeep.2.trans hset.2⟩

/-- C2 witness: events reporting (100, 50) then (180, 90) yield final totals
(180, 90), not (280, 140). -/
theorem c2_token_count_replaces_witness :
    (parseCodexSessionFile (strL "f.jsonl") [] [] 0
        [CodexEntry.event_msg none (.token_count (some ⟨100, 50, none, none⟩)),
         CodexEntry.event_msg none (.token_count (some ⟨180, 90, none, none⟩))]).stats.totalInputTokens = 180 ∧
    (parseCodexSessionFile (strL "f.jsonl") [] [] 0
        [CodexEntry.event_msg none (.token_count (some ⟨100, 50, none, none⟩)),
         CodexEntry.event_msg none (.token_count (some ⟨180, 90, none, none⟩))]).stats.totalOutputTokens = 90 := by
  have := c2_token_count_replaces (strL "f.jsonl") [] [] 0
    [CodexEntry.event_msg none (.token_count (some ⟨100, 50, none, none⟩))] []
    none ⟨180, 90, none, none⟩ (by intro e he; cases he)
  simpa using this

/-! ## C1 — per-family effective date -/

/-- C1: the Claude adapter derives the effective date as the calendar date of
`startTime`, the Codex adapter as the calendar date of `endTime` shifted back
by the fixed 3-hour boundary; consequently a Codex session whose `endTime`
falls between midnight and 3 AM is attributed to the previous calendar day. -/
theorem c1_effective_date_per_family :
    (∀ (filePath projectPath projectName : List Char) (now : Int)
       (entries : List CodexEntry),
       (parseCodexSessionFile filePath projectPath projectName now entries).date =
         getEffectiveDate
           (parseCodexSessionFile filePath projectPath projectName now entries).endTime) ∧
    (∀ (filePath projectPath projectName : List Char) (now : Int)
       (entries : List RawSessionEntry),
       (parseSessionFile filePath projectPath projectName now entries).date =
         dayOfTimestamp
           (parseSessionFile filePath projectPath projectName now entries).startTime) ∧
    (∀ t : Int, t % 86400 < 10800 →
       getEffectiveDate t = dayOfTimestamp t - 1) := by
  refine ⟨fun _ _ _ _ _ => rfl, fun _ _ _ _ _ => rfl, fun t ht => ?_⟩
  unfold getEffectiveDate dayOfTimestamp
  omega

/-- C1 witness: a Codex end time of 01:00 (3600 seconds into a day) is before
the 3 AM boundary and is attributed to the previous day. -/
theorem c1_effective_date_per_family_witness :
    (3600 : Int) % 86400 < 10800 ∧ getEffectiveDate 3600 = dayOfTimestamp 3600 - 1 :=
  ⟨by decide, c1_effective_date_per_family.2.2 3600 (by decide)⟩

/-! ## C5 — patch file extraction -/

theorem filter_not_mem_append_singleton (rest acc : List (List Char)) (p : List Char) :
    rest.filter (fun x => x ∉ acc ++ [p]) =
      (rest.filter (fun x => x ∉ acc)).filter (fun x => x ≠ p) := by
  rw [List.filter_filter]
  apply List.filter_congr
  intro x _
  by_cases h1 : x = p <;> by_cases h2 : x ∈ acc <;> simp [h1, h2]

theorem extractScanSkip_eq (l : List Char) :
    ∀ (k : Nat) (acc : List (List Char)),
      extractScanSkip k l acc =
        acc ++ firstOccurrences ((patchCapturesSkip k l).filter (fun p => p ∉ acc)) := by
  induction l with
  | nil =>
    intro k acc
    cases k <;> simp [extractScanSkip, patchCapturesSkip, firstOccurrences]
  | cons c t ih =>
    intro k acc
    cases k with
    | succ n =>
      have h1 : extractScanSkip (n + 1) (c :: t) acc = extractScanSkip n t acc := rfl
      have h2 : patchCapturesSkip (n + 1) (c :: t) = patchCapturesSkip n t := rfl
      rw [h1, h2, ih n acc]
    | zero =>
      cases hm : markerCaptureAt (c :: t) with
      | none =>
        have h1 : extractScanSkip 0 (c :: t) acc = extractScanSkip 0 t acc := by
          simp [extractScanSkip, hm]
        have h2 : patchCapturesSkip 0 (c :: t) = patchCapturesSkip 0 t := by
          simp [patchCapturesSkip, hm]
        rw [h1, h2, ih 0 acc]
      | some pc =>
        obtain ⟨p, consumed⟩ := pc
        by_cases hp : p.isEmpty
        · have h1 : extractScanSkip 0 (c :: t) acc = extractScanSkip (consumed - 1) t acc := by
            simp [extractScanSkip, hm, hp]
          have h2 : patchCapturesSkip 0 (c :: t) = patchCapturesSkip (consumed - 1) t := by
            simp [patchCapturesSkip, hm, hp]
          rw [h1, h2, ih (consumed - 1) acc]
        · by_cases hin : p ∈ acc
          · have h1 : extractScanSkip 0 (c :: t) acc =
                extractScanSkip (consumed - 1) t acc := by
              simp [extractScanSkip, hm, hin]
            have h2 : patchCapturesSkip 0 (c :: t) =
                p :: patchCapturesSkip (consumed - 1) t := by
              simp [patchCapturesSkip, hm, hp]
            have h3 : (p :: patchCapturesSkip (consumed - 1) t).filter (fun q => q ∉ acc) =
                (patchCapturesSkip (consumed - 1) t).filter (fun q => q ∉ acc) := by
              simp [List.filter_cons, hin]
            rw [h1, h2, h3, ih (consumed - 1) acc]
          · have h1 : extractScanSkip 0 (c :: t) acc =
                extractScanSkip (consumed - 1) t (acc ++ [p]) := by
              simp [extractScanSkip, hm, hp, hin]
            have h2 : patchCapturesSkip 0 (c :: t) =
                p :: patchCapturesSkip (consumed - 1) t := by
              simp [patchCapturesSkip, hm, hp]
            rw [h1, h2, ih (consumed - 1) (acc ++ [p]), List.append_assoc]
            congr 1
            have hfc : (p :: patchCapturesSkip (consumed - 1) t).filter (fun q => q ∉ acc) =
                p :: (patchCapturesSkip (consumed - 1) t).filter (fun q => q ∉ acc) := by
              simp [List.filter_cons, hin]
            rw [hfc, firstOccurrences, filter_not_mem_append_singleton]
            simp

set_option maxRecDepth 8000 in
/-- C5: `extractFilesFromPatch` returns exactly the distinct trimmed captures
the marker regex produces on the payload, each once, in first-occurrence
order; in particular a payload with `*** Add File: a.go` and
`*** Update File: b.go` twice yields exactly `["a.go", "b.go"]`.  The last two
conjuncts pin the newline-crossing `\s*` semantics of the source regex: a
marker followed only by whitespace to the end of its line captures the text of
the following line. -/
theorem c5_extract_files_from_patch :
    (∀ patchContent : List Char,
       extractFilesFromPatch patchContent = firstOccurrences (patchCaptures patchContent)) ∧
    extractFilesFromPatch
        (strL "*** Add File: a.go\n*** Update File: b.go\ncontext\n*** Add File: a.go\n*** Update File: b.go") =
      [strL "a.go", strL "b.go"] ∧
    extractFilesFromPatch (strL "*** Add File: \nfoo") = [strL "foo"] ∧
    extractFilesFromPatch (strL "*** Add File: \n*** Update File: b.go") =
      [strL "*** Update File: b.go"] := by
    refine ⟨?_, by decide, by decide, by decide⟩
    intro patchContent
    rw [extractFilesFromPatch, patchCaptures, extractScanSkip_eq]
    simp


/-! ## C3 — within-file deduplication -/

theorem claudeStep_of_seen (acc : ClaudeAccum) (e : RawSessionEntry)
    (h : dedupKey e ∈ acc.seen) : claudeStep acc e = acc := by
  simp [claudeStep, h]

theorem claudeStep_seen (acc : ClaudeAccum) (e : RawSessionEntry) :
    (claudeStep acc e).seen =
      if dedupKey e ∈ acc.seen then acc.seen else acc.seen ++ [dedupKey e] := by
  by_cases h : dedupKey e ∈ acc.seen
  · rw [claudeStep_of_seen acc e h, if_pos h]
  · rw [if_neg h]
    simp only [claudeStep, h, if_false]
    repeat' split
    all_goals rfl

theorem claudeFold_seen_mem (l : List RawSessionEntry) (acc : ClaudeAccum)
    (key : List Char) (h : key ∈ acc.seen) :
    key ∈ (l.foldl claudeStep acc).seen := by
  induction l generalizing acc with
  | nil => exact h
  | cons x t ih =>
    simp only [List.foldl_cons]
    apply ih
    rw [claudeStep_seen]
    split
    · exact h
    · exact List.mem_append_left _ h

theorem claudeFold_key_seen (xs : List RawSessionEntry) (acc : ClaudeAccum)
    (key : List Char) (h : key ∈ xs.map dedupKey) :
    key ∈ (xs.foldl claudeStep acc).seen := by
  induction xs generalizing acc with
  | nil => cases h
  | cons x t ih =>
    simp only [List.foldl_cons]
    rcases List.mem_map.mp h with ⟨y, hy, hkey⟩
    rcases List.mem_cons.mp hy with rfl | hyt
    · apply claudeFold_seen_mem
      rw [claudeStep_seen]
      split
      · exact hkey ▸ ‹dedupKey y ∈ acc.seen›
      · exact hkey ▸ List.mem_append_right _ (List.mem_singleton_self _)
    · exact ih (claudeStep acc x) (List.mem_map.mpr ⟨y, hyt, hkey⟩)

/-- C3 counterexample: two Claude records sharing the same record uuid `"u"`
but different `requestId`s both survive deduplication — the claim that records
sharing the record's own unique identifier contribute only one `ParsedMessage`
is false on the code, whose key also involves the embedded message id and the
request id. -/
theorem c3_record_uuid_dedup_counterexample :
    (RawSessionEntry.mk .user 5 (strL "u") none none (some (strL "r1")) none).uuid =
      (RawSessionEntry.mk .user 5 (strL "u") none none (some (strL "r2")) none).uuid ∧
    (parseSessionFile (strL "f") [] [] 0
        [RawSessionEntry.mk .user 5 (strL "u") none none (some (strL "r1")) none,
         RawSessionEntry.mk .user 5 (strL "u") none none (some (strL "r2")) none]).messages.length = 2 := by
  exact ⟨rfl, by decide⟩

/-- C3 amended: the deduplication key is `(message.id || uuid):(requestId || '')`
(`dedupKey`); a record whose key was already contributed by an earlier record
is discarded entirely — the resulting `ParsedSession` (messages, counters,
timestamp bounds, stats) is exactly the one obtained with the record deleted
from the stream. -/
theorem c3_dedup_by_message_key :
    ∀ (filePath projectPath projectName : List Char) (now : Int)
      (xs ys : List RawSessionEntry) (e : RawSessionEntry),
      dedupKey e ∈ xs.map dedupKey →
      parseSessionFile filePath projectPath projectName now (xs ++ e :: ys) =
        parseSessionFile filePath projectPath projectName now (xs ++ ys) := by
  intro filePath projectPath projectName now xs ys e h
  unfold parseSessionFile
  congr 1
  rw [List.foldl_append, List.foldl_append, List.foldl_cons]
  congr 1
  exact claudeStep_of_seen _ e (claudeFold_key_seen xs {} (dedupKey e) h)

/-- C3 amended witness: feeding the same record twice yields the same
`ParsedSession` as feeding it once. -/
theorem c3_dedup_by_message_key_witness :
    parseSessionFile (strL "f") [] [] 0
        [RawSessionEntry.mk .user 5 (strL "u") none none (some (strL "r1")) none,
         RawSessionEntry.mk .user 5 (strL "u") none none (some (strL "r1")) none] =
      parseSessionFile (strL "f") [] [] 0
        [RawSessionEntry.mk .user 5 (strL "u") none none (some (strL "r1")) none] := by
  have := c3_dedup_by_message_key (strL "f") [] [] 0
    [RawSessionEntry.mk .user 5 (strL "u") none none (some (strL "r1")) none] []
    (RawSessionEntry.mk .user 5 (strL "u") none none (some (strL "r1")) none)
    (by decide)
  simpa using this

/-! ## C6 — path-resolution candidate order -/

theorem resolveProjectPathGo_eq (fs : List Char → Bool) (basePath projectPart : List Char)
    (parts : List (List Char)) :
    ∀ (fuel sc : Nat),
      resolveProjectPathGo fs basePath projectPart parts sc fuel =
        (((List.range fuel).map (fun j => mkProjCand basePath projectPart parts (sc + j))).find?
            fs).getD (basePath ++ strL "/" ++ projectPart) := by
  intro fuel
  induction fuel with
  | zero => intro sc; simp [resolveProjectPathGo]
  | succ n ih =>
    intro sc
    rw [List.range_succ_eq_map]
    simp only [List.map_cons, List.map_map, List.find?_cons, Nat.add_zero]
    have hmap : List.map ((fun j => mkProjCand basePath projectPart parts (sc + j)) ∘ Nat.succ)
        (List.range n) =
        List.map (fun j => mkProjCand basePath projectPart parts (sc + 1 + j)) (List.range n) := by
      apply List.map_congr_left
      intro j _
      simp only [Function.comp_apply]
      congr 1
      omega
    rw [hmap]
    cases hc : fs (mkProjCand basePath projectPart parts sc) with
    | true => simp [resolveProjectPathGo, hc]
    | false => simp [resolveProjectPathGo, hc, ih (sc + 1)]

theorem resolveFullPathGo_eq (fs : List Char → Bool) (parts : List (List Char)) :
    ∀ k, resolveFullPathGo fs parts k =
      ((List.range' 1 k).reverse.map (mkFullCand parts)).find? fs := by
  intro k
  induction k with
  | zero => simp [resolveFullPathGo]
  | succ n ih =>
    rw [List.range'_concat]
    simp only [List.reverse_append, List.reverse_cons, List.reverse_nil, List.nil_append,
      List.singleton_append, List.map_cons, List.find?_cons]
    have h1 : 1 + 1 * n = n + 1 := by omega
    rw [h1]
    cases hc : fs (mkFullCand parts (n + 1)) with
    | true => simp [resolveFullPathGo, hc]
    | false => simp [resolveFullPathGo, hc, ih]

/-- C6 counterexample: for the encoded folder `a-b-c` on a filesystem where
both the partially-split `/a/b-c` and the fully-split `/a/b/c` exist,
`resolveFullPath` returns the fully-split `/a/b/c` — it probes candidates from
every-delimiter-as-separator towards literal, while the claimed
most-literal-first order (`specLiteralFirstResolve`) would return `/a/b-c`. -/
theorem c6_resolver_order_counterexample :
    resolveFullPath (fun p => p = strL "/a/b/c" ∨ p = strL "/a/b-c") (strL "a-b-c") none =
        strL "/a/b/c" ∧
    specLiteralFirstResolve (fun p => p = strL "/a/b/c" ∨ p = strL "/a/b-c") (strL "a-b-c")
        none = strL "/a/b-c" ∧
    ¬ (strL "/a/b/c" = strL "/a/b-c") := by
  refine ⟨by decide, by decide, by decide⟩

/-- C6 amended: each resolver returns the first existing candidate of its own
probe order — `resolveProjectPath` (recognized src folders) goes from
all-delimiters-literal towards all-separators and falls back to the literal
interpretation, while `resolveFullPath` (general folders) goes from
all-separators towards the most literal splittable interpretation and falls
back to the recorded working directory when available, else to the
delimiter-to-separator substitution.  In particular, whenever any candidate
exists, `resolveProjectPath` returns an existing interpretation. -/
theorem c6_resolver_candidate_orders :
    (∀ (fs : List Char → Bool) (basePath projectPart : List Char),
       resolveProjectPath fs basePath projectPart =
         ((projCandList basePath projectPart (splitOnC '-' projectPart)).find? fs).getD
           (basePath ++ strL "/" ++ projectPart)) ∧
    (∀ (fs : List Char → Bool) (encodedPath : List Char) (cwd : Option (List Char)),
       resolveFullPath fs encodedPath cwd =
         ((fullCandList (splitOnC '-' encodedPath)).find? fs).getD
           (match cwd with
            | some c => c
            | none => strL "/" ++ encodedPath.map (fun c => if c = '-' then '/' else c))) ∧
    (∀ (fs : List Char → Bool) (basePath projectPart : List Char),
       (∃ cand ∈ projCandList basePath projectPart (splitOnC '-' projectPart),
          fs cand = true) →
       fs (resolveProjectPath fs basePath projectPart) = true) := by
  have hproj : ∀ (fs : List Char → Bool) (basePath projectPart : List Char),
      resolveProjectPath fs basePath projectPart =
        ((projCandList basePath projectPart (splitOnC '-' projectPart)).find? fs).getD
          (basePath ++ strL "/" ++ projectPart) := by
    intro fs basePath projectPart
    unfold resolveProjectPath projCandList
    rw [resolveProjectPathGo_eq]
    simp
  refine ⟨hproj, ?_, ?_⟩
  · intro fs encodedPath cwd
    unfold resolveFullPath fullCandList
    simp only [resolveFullPathGo_eq]
    cases h : (((List.range' 1 ((splitOnC '-' encodedPath).length - 1)).reverse.map
        (mkFullCand (splitOnC '-' encodedPath))).find? fs) <;> cases cwd <;> simp [h]
  · intro fs basePath projectPart hex
    rw [hproj]
    have hsome : (((projCandList basePath projectPart (splitOnC '-' projectPart)).find?
        fs)).isSome := by
      rw [List.find?_isSome]
      rcases hex with ⟨cand, hm, hf⟩
      exact ⟨cand, hm, hf⟩
    rcases Option.isSome_iff_exists.mp hsome with ⟨a, ha⟩
    rw [ha]
    exact List.find?_some ha

/-- C6 amended witness: for `a-b` under `/base` where only the partially-split
`/base/a/b` exists, the resolver returns an existing interpretation. -/
theorem c6_resolver_candidate_orders_witness :
    (∃ cand ∈ projCandList (strL "/base") (strL "a-b") (splitOnC '-' (strL "a-b")),
       decide (cand = strL "/base/a/b") = true) ∧
    resolveProjectPath (fun p => decide (p = strL "/base/a/b")) (strL "/base") (strL "a-b") =
      strL "/base/a/b" := by
  refine ⟨⟨strL "/base/a/b", by decide, by decide⟩, ?_⟩
  have h := c6_resolver_candidate_orders.2.2 (fun p => decide (p = strL "/base/a/b"))
    (strL "/base") (strL "a-b") ⟨strL "/base/a/b", by decide, by decide⟩
  exact of_decide_eq_true h

/-! ## C7 — normalized tool vocabulary -/

theorem mapCodexToolName_not_raw (n : List Char) :
    mapCodexToolName n ∉ rawCodexToolNames := by
  unfold mapCodexToolName
  split_ifs with h1 h2 h3 h4
  · decide
  · decide
  · decide
  · decide
  · simp only [rawCodexToolNames, List.mem_cons, List.mem_singleton, not_or]
    refine ⟨h1, h2, h3, ?_⟩
    simpa using h4

theorem keys_bumpTool (tc : List (List Char × Nat)) (name k : List Char)
    (h : k ∈ (bumpTool tc name).map Prod.fst) :
    k ∈ tc.map Prod.fst ∨ k = name := by
  unfold bumpTool at h
  cases hl : tc.lookup name with
  | some n =>
    rw [hl] at h
    left
    rw [List.map_map] at h
    have : (fun kv : List Char × Nat => ((if kv.1 = name then (kv.1, n + 1) else kv)).1) =
        Prod.fst := by
      funext kv
      by_cases hk : kv.1 = name <;> simp [hk]
    rw [show (Prod.fst ∘ fun kv : List Char × Nat => if kv.1 = name then (kv.1, n + 1) else kv) =
        Prod.fst from funext fun kv => by by_cases hk : kv.1 = name <;> simp [hk]] at h
    exact h
  | none =>
    rw [hl] at h
    rw [List.map_append] at h
    rcases List.mem_append.mp h with h' | h'
    · exact Or.inl h'
    · right; simpa using h'

theorem codexResponseItemStep_toolCalls (acc : CodexAccum) (ts : Option Int)
    (payload : CodexResponseItem) :
    (codexResponseItemStep acc ts payload).toolCalls = acc.toolCalls ∨
    (codexResponseItemStep acc ts payload).toolCalls =
      bumpTool acc.toolCalls (mapCodexToolName (payload.name.getD [])) := by
  unfold codexResponseItemStep
  repeat' split
  all_goals simp [apply_ite CodexAccum.toolCalls]

theorem codexOldFunctionCallStep_toolCalls (acc : CodexAccum) (ts : Option Int)
    (name : List Char) (args : Option ArgsField) :
    (codexOldFunctionCallStep acc ts name args).toolCalls = acc.toolCalls ∨
    (codexOldFunctionCallStep acc ts name args).toolCalls =
      bumpTool acc.toolCalls (strL "Edit") ∨
    (codexOldFunctionCallStep acc ts name args).toolCalls =
      bumpTool acc.toolCalls (strL "Bash") := by
  unfold codexOldFunctionCallStep
  repeat' split
  all_goals simp [apply_ite CodexAccum.toolCalls]
  all_goals (repeat' split)
  all_goals
    first
    | exact Or.inr (Or.inr (fun hc => absurd hc (by assumption)))
    | simp

theorem codexStep_toolCalls_cases (acc : CodexAccum) (e : CodexEntry) :
    (codexStep acc e).toolCalls = acc.toolCalls ∨
    ∃ n, (codexStep acc e).toolCalls = bumpTool acc.toolCalls (mapCodexToolName n) := by
  cases e with
  | session_meta ts meta => cases ts <;> simp [codexStep, codexTs]
  | oldHeader ts id branch => cases ts <;> simp [codexStep, codexTs]
  | event_msg ts payload =>
    rcases payload with m | m | _ | u
    · cases ts <;> simp [codexStep, codexTs]
    · cases ts <;> simp [codexStep, codexTs]
    · cases ts <;> simp [codexStep, codexTs]
    · rcases u with _ | u <;> cases ts <;> simp [codexStep, codexTs]
  | response_item ts payload =>
    have key : ∀ acc' : CodexAccum, acc'.toolCalls = acc.toolCalls →
        (codexResponseItemStep acc' ts payload).toolCalls = acc.toolCalls ∨
        ∃ n, (codexResponseItemStep acc' ts payload).toolCalls =
          bumpTool acc.toolCalls (mapCodexToolName n) := by
      intro acc' hacc
      rcases codexResponseItemStep_toolCalls acc' ts payload with h | h
      · exact Or.inl (h.trans hacc)
      · exact Or.inr ⟨payload.name.getD [], by rw [h, hacc]⟩
    cases ts with
    | none => exact key acc rfl
    | some t =>
      simp only [codexStep, codexTs]
      exact key _ rfl
  | oldFunctionCall ts name args =>
    have key : ∀ acc' : CodexAccum, acc'.toolCalls = acc.toolCalls →
        (codexOldFunctionCallStep acc' ts name args).toolCalls = acc.toolCalls ∨
        ∃ n, (codexOldFunctionCallStep acc' ts name args).toolCalls =
          bumpTool acc.toolCalls (mapCodexToolName n) := by
      intro acc' hacc
      rcases codexOldFunctionCallStep_toolCalls acc' ts name args with h | h | h
      · exact Or.inl (h.trans hacc)
      · exact Or.inr ⟨strL "apply_patch", by rw [h, hacc]; rfl⟩
      · exact Or.inr ⟨strL "shell", by rw [h, hacc]; rfl⟩
    cases ts with
    | none => exact key acc rfl
    | some t =>
      simp only [codexStep, codexTs]
      exact key _ rfl
  | otherEntry ts => cases ts <;> simp [codexStep, codexTs]

theorem codexFold_toolCalls_not_raw (entries : List CodexEntry) (acc : CodexAccum)
    (h : ∀ k ∈ acc.toolCalls.map Prod.fst, k ∉ rawCodexToolNames) :
    ∀ k ∈ (entries.foldl codexStep acc).toolCalls.map Prod.fst, k ∉ rawCodexToolNames := by
  induction entries generalizing acc with
  | nil => exact h
  | cons e t ih =>
    simp only [List.foldl_cons]
    apply ih
    intro k hk
    rcases codexStep_toolCalls_cases acc e with hc | ⟨n, hc⟩
    · exact h k (hc ▸ hk)
    · rcases keys_bumpTool acc.toolCalls (mapCodexToolName n) k (hc ▸ hk) with h' | h'
      · exact h k h'
      · exact h' ▸ mapCodexToolName_not_raw n

/-- C7 counterexample: a Codex stream containing a custom tool call named
`web_search` — a name outside the recognized mapping — produces the histogram
key `web_search` itself: the raw source-tool name, unchanged, and not a member
of the shared normalized vocabulary. -/
theorem c7_raw_tool_name_counterexample :
    (parseCodexSessionFile (strL "f") [] [] 0
        [CodexEntry.response_item none
          { rtype := strL "custom_tool_call", name := some (strL "web_search") }]).stats.toolCalls =
      [(strL "web_search", 1)] ∧
    mapCodexToolName (strL "web_search") = strL "web_search" ∧
    strL "web_search" ∉ normalizedToolVocabulary := by
  refine ⟨by decide, by decide, by decide⟩

/-- C7 amended: every key of the Codex adapter's tool histogram is the image
of `mapCodexToolName`, so it is never one of the recognized raw Codex names
(`shell`, `shell_command`, `apply_patch`, `update_plan`); in particular both
`shell` and `shell_command` map to `Bash`.  An unrecognized Codex tool name,
however, passes through unchanged, so keys are not confined to the shared
vocabulary. -/
theorem c7_codex_tool_names_normalized :
    (∀ (filePath projectPath projectName : List Char) (now : Int)
       (entries : List CodexEntry),
       ∀ k ∈ ((parseCodexSessionFile filePath projectPath projectName now
           entries).stats.toolCalls).map Prod.fst,
         k ∉ rawCodexToolNames) ∧
    mapCodexToolName (strL "shell") = strL "Bash" ∧
    mapCodexToolName (strL "shell_command") = strL "Bash" := by
  refine ⟨?_, by decide, by decide⟩
  intro filePath projectPath projectName now entries k hk
  have : (parseCodexSessionFile filePath projectPath projectName now
      entries).stats.toolCalls = (entries.foldl codexStep {}).toolCalls := rfl
  rw [this] at hk
  exact codexFold_toolCalls_not_raw entries {} (by intro k' hk'; cases hk') k hk

/-- C7 amended witness: a Codex `shell` function call yields the key `Bash`,
which is not a raw Codex name. -/
theorem c7_codex_tool_names_normalized_witness :
    strL "Bash" ∈ ((parseCodexSessionFile (strL "f") [] [] 0
        [CodexEntry.response_item none
          { rtype := strL "function_call", name := some (strL "shell") }]).stats.toolCalls).map
        Prod.fst ∧
    strL "Bash" ∉ rawCodexToolNames := by
  refine ⟨by decide, ?_⟩
  exact c7_codex_tool_names_normalized.1 (strL "f") [] [] 0
    [CodexEntry.response_item none
      { rtype := strL "function_call", name := some (strL "shell") }]
    (strL "Bash") (by decide)

/-! ## C8 — tool-input summary length -/

theorem truncate_length_le (s : List Char) : (truncate s 200).length ≤ 200 := by
  unfold truncate
  split
  · assumption
  · simp only [List.length_append, List.length_take]
    have h3 : (strL "...").length = 3 := rfl
    omega

theorem summarizeToolInput_length_le (toolName : List Char) (input : ToolInputRec) :
    (summarizeToolInput toolName input).length ≤ 200 := by
  unfold summarizeToolInput
  split_ifs <;> exact truncate_length_le _

theorem extractToolUses_input_le (c : Option (List MessageContent)) :
    ∀ t ∈ extractToolUses c, t.input.length ≤ 200 := by
  intro t ht
  cases c with
  | none => cases ht
  | some items =>
    rcases List.mem_filterMap.mp ht with ⟨it, _, heq⟩
    cases it with
    | text s => exact Option.noConfusion heq
    | textContentField s => exact Option.noConfusion heq
    | tool_result => exact Option.noConfusion heq
    | tool_use id nm inp =>
      injection heq with h
      rw [← h]
      exact summarizeToolInput_length_le nm inp

theorem claudeStep_messages (acc : ClaudeAccum) (e : RawSessionEntry) :
    (claudeStep acc e).messages = acc.messages ∨
    ∃ text, (claudeStep acc e).messages = acc.messages ++
      [⟨e.etype, some e.timestamp, text,
        extractToolUses (e.message.bind ClaudeMessage.content)⟩] := by
  by_cases h : dedupKey e ∈ acc.seen
  · rw [claudeStep_of_seen acc e h]
    exact Or.inl rfl
  · refine Or.inr ⟨extractText (e.message.bind ClaudeMessage.content), ?_⟩
    simp only [claudeStep, h, if_false]
    split_ifs <;> (repeat' split) <;> rfl

theorem claudeFold_toolUses_le (l : List RawSessionEntry) (acc : ClaudeAccum) :
    ∀ m ∈ (l.foldl claudeStep acc).messages,
      m ∈ acc.messages ∨ ∀ t ∈ m.toolUses, t.input.length ≤ 200 := by
  induction l generalizing acc with
  | nil => exact fun m hm => Or.inl hm
  | cons e t ih =>
    intro m hm
    simp only [List.foldl_cons] at hm
    rcases ih (claudeStep acc e) m hm with hstep | hbound
    · rcases claudeStep_messages acc e with hemsg | ⟨text, hemsg⟩
      · exact Or.inl (hemsg ▸ hstep)
      · rw [hemsg] at hstep
        rcases List.mem_append.mp hstep with h' | h'
        · exact Or.inl h'
        · right
          rcases List.mem_singleton.mp h' with rfl
          exact extractToolUses_input_le _
    · exact Or.inr hbound

set_option maxRecDepth 16000 in
/-- C8 counterexample: a Codex `apply_patch` call whose patch adds a file with
a 250-character path produces a `ToolUse` whose input summary is that path,
250 characters long — the ≤ 200-character truncation does not hold for every
`ToolUse` an adapter produces. -/
theorem c8_tool_summary_length_counterexample :
    ((parseCodexSessionFile (strL "f") [] [] 0
        [CodexEntry.response_item none
          { rtype := strL "function_call", name := some (strL "apply_patch"),
            input := some (strL "*** Add File: " ++ List.replicate 250 'a') }]).messages.map
        (fun m => m.toolUses.map (fun t => t.input.length))) = [[250]] ∧
    ¬ (250 ≤ 200) := by
  exact ⟨by decide, by decide⟩

/-- C8 amended: every Claude-adapter summary is truncated to at most 200
characters — `summarizeToolInput` always, hence every `ToolUse` in a
`parseSessionFile` result — and every Codex summary except the `apply_patch`
case (which surfaces the extracted file path untruncated) is also bounded by
200 characters. -/
theorem c8_tool_summary_truncation :
    (∀ (toolName : List Char) (input : ToolInputRec),
       (summarizeToolInput toolName input).length ≤ 200) ∧
    (∀ (name : List Char) (payload : CodexResponseItem),
       ¬ name = strL "apply_patch" →
       (summarizeCodexToolInput name payload).length ≤ 200) ∧
    (∀ (filePath projectPath projectName : List Char) (now : Int)
       (entries : List RawSessionEntry),
       ∀ m ∈ (parseSessionFile filePath projectPath projectName now entries).messages,
         ∀ t ∈ m.toolUses, t.input.length ≤ 200) := by
  refine ⟨summarizeToolInput_length_le, ?_, ?_⟩
  · intro name payload h
    unfold summarizeCodexToolInput
    split_ifs with h1 h2
    · cases ha : payload.arguments with
      | none => simp
      | some args =>
        cases hp : args.parsed with
        | none => simpa [hp] using truncate_length_le args.raw
        | some pj => simpa [hp] using truncate_length_le (commandToStr pj.command)
    · exact absurd h2.1 h
    · simp
  · intro filePath projectPath projectName now entries m hm t ht
    have hmem : m ∈ (entries.foldl claudeStep {}).messages := hm
    rcases claudeFold_toolUses_le entries {} m hmem with h0 | hb
    · cases h0
    · exact hb t ht

/-- C8 amended witness: a Codex `shell` call with a 300-character command is
summarized to at most 200 characters. -/
theorem c8_tool_summary_truncation_witness :
    ¬ strL "shell" = strL "apply_patch" ∧
    (summarizeCodexToolInput (strL "shell")
        { rtype := strL "function_call",
          arguments := some ⟨List.replicate 300 'x', none⟩ }).length ≤ 200 :=
  ⟨by decide, c8_tool_summary_truncation.2.1 (strL "shell")
    { rtype := strL "function_call", arguments := some ⟨List.replicate 300 'x', none⟩ }
    (by decide)⟩

/-! ## C9 — one project identity per discovered folder -/

theorem insertByMtime_perm (s : SessionFile) (l : List SessionFile) :
    List.Perm (insertByMtime s l) (s :: l) := by
  induction l with
  | nil => exact List.Perm.refl _
  | cons x xs ih =>
    unfold insertByMtime
    split
    · exact List.Perm.refl _
    · exact (List.Perm.cons x ih).trans (List.Perm.swap s x xs)

theorem sortByMtimeDesc_perm (l : List SessionFile) :
    List.Perm (sortByMtimeDesc l) l := by
  induction l with
  | nil => exact List.Perm.refl _
  | cons x xs ih =>
    unfold sortByMtimeDesc at ih ⊢
    simp only [List.foldr_cons]
    exact (insertByMtime_perm x _).trans (List.Perm.cons x ih)

/-- C9: the discovery walk resolves the project identity once per folder — a
pure function of the folder name and the first (probe) session file — and every
`SessionFile` record emitted for that folder carries exactly that identity;
`findAllSessionFiles` is the newest-first reordering (a permutation) of the
per-folder record lists. -/
theorem c9_project_identity_once_per_folder :
    (∀ (fs : List Char → Bool) (cwdOf : List Char → Option (List Char))
       (home projectsDir : List Char) (folders : List FolderEntry),
       List.Perm (findAllSessionFiles fs cwdOf home projectsDir folders)
         (folders.flatMap (sessionFilesOfFolder fs cwdOf home projectsDir))) ∧
    (∀ (fs : List Char → Bool) (cwdOf : List Char → Option (List Char))
       (home projectsDir : List Char) (folder : FolderEntry),
       ∀ r ∈ sessionFilesOfFolder fs cwdOf home projectsDir folder,
         r.projectPath = (decodeProjectFolder fs home folder.name
             (cwdOf (joinPath (joinPath projectsDir folder.name)
               ((folder.files.filter (fun f => endsWithC (strL ".jsonl") f.1)).headD
                   ([], 0)).1))).1 ∧
         r.projectName = (decodeProjectFolder fs home folder.name
             (cwdOf (joinPath (joinPath projectsDir folder.name)
               ((folder.files.filter (fun f => endsWithC (strL ".jsonl") f.1)).headD
                   ([], 0)).1))).2) := by
  constructor
  · intro fs cwdOf home projectsDir folders
    exact sortByMtimeDesc_perm _
  · intro fs cwdOf home projectsDir folder r hr
    unfold sessionFilesOfFolder at hr
    cases hf : folder.files.filter (fun f => endsWithC (strL ".jsonl") f.1) with
    | nil => rw [hf] at hr; cases hr
    | cons first rest =>
      rw [hf] at hr
      rcases List.mem_map.mp hr with ⟨f, _, heq⟩
      subst heq
      exact ⟨rfl, rfl⟩

/-- C9 witness: for a concrete folder with two session files, the first emitted
record carries exactly the once-resolved identity of the folder. -/
theorem c9_project_identity_once_per_folder_witness :
    (SessionFile.mk (strL "/p/-a-b/s1.jsonl") (strL "/a/b") (strL "b") (strL "s1") 5 []
        .claude).projectPath =
      (decodeProjectFolder (fun _ => false) (strL "/home/u") (strL "-a-b")
          ((fun _ => none) (joinPath (joinPath (strL "/p") (strL "-a-b"))
            (((FolderEntry.mk (strL "-a-b") [(strL "s1.jsonl", 5), (strL "s2.jsonl", 3)]).files.filter
                (fun f => endsWithC (strL ".jsonl") f.1)).headD ([], 0)).1))).1 ∧
    (SessionFile.mk (strL "/p/-a-b/s1.jsonl") (strL "/a/b") (strL "b") (strL "s1") 5 []
        .claude).projectName =
      (decodeProjectFolder (fun _ => false) (strL "/home/u") (strL "-a-b")
          ((fun _ => none) (joinPath (joinPath (strL "/p") (strL "-a-b"))
            (((FolderEntry.mk (strL "-a-b") [(strL "s1.jsonl", 5), (strL "s2.jsonl", 3)]).files.filter
                (fun f => endsWithC (strL ".jsonl") f.1)).headD ([], 0)).1))).2 :=
  c9_project_identity_once_per_folder.2 (fun _ => false) (fun _ => none)
    (strL "/home/u") (strL "/p")
    (FolderEntry.mk (strL "-a-b") [(strL "s1.jsonl", 5), (strL "s2.jsonl", 3)])
    (SessionFile.mk (strL "/p/-a-b/s1.jsonl") (strL "/a/b") (strL "b") (strL "s1") 5 [] .claude)
    (by decide)

/-! ## C10 — sessions without code changes are marked processed but never
stored -/

/-- C10: when the parsed tool histogram contains none of the code-change tools
(`hasCodeChanges` is false), processing a session leaves the session-summaries
store and the projects store untouched, and — whenever the file is not
excluded by an active date filter — records exactly the (path, hash) ledger
entry, so `isFileProcessed` answers true for the file and the result is
reported as skipped. -/
theorem c10_no_code_changes_marked_not_stored :
    ∀ (summarizer : ParsedSession → SessionSummary) (sf : SessionFile) (data : SessionData)
      (df : Option DateFilter) (now : Int) (nowStr : List Char) (db : WorklogDB),
      hasCodeChanges (parsedOf sf now data).stats.toolCalls = false →
      ((processSession summarizer sf data df now nowStr db).1.session_summaries =
         db.session_summaries ∧
       (processSession summarizer sf data df now nowStr db).1.projects = db.projects) ∧
      (dateFilterPasses df (parsedOf sf now data).date = true →
        (processSession summarizer sf data df now nowStr db).1.processed_files =
          markFileProcessed db.processed_files sf.path sf.fileHash nowStr ∧
        isFileProcessed (processSession summarizer sf data df now nowStr db).1.processed_files
          sf.path sf.fileHash = true ∧
        (processSession summarizer sf data df now nowStr db).2.skipped = true) := by
  intro summarizer sf data df now nowStr db hnc
  cases hdf : dateFilterPasses df (parsedOf sf now data).date with
  | false =>
    constructor
    · simp [processSession, hdf]
    · intro hcontra
      cases hcontra
  | true =>
    refine ⟨?_, fun _ => ⟨?_, ?_, ?_⟩⟩
    · simp [processSession, hdf, hnc]
    · simp [processSession, hdf, hnc]
    · simp only [processSession, hdf, hnc]
      simp [isFileProcessed, lookupProcessed_markFileProcessed]
    · simp [processSession, hdf, hnc]

/-- C10 witness: processing an empty Codex session (no tool calls at all)
against an empty store marks the file processed and stores nothing. -/
theorem c10_no_code_changes_marked_not_stored_witness :
    (processSession (fun _ => ⟨[], [], [], []⟩)
        (SessionFile.mk (strL "/f.jsonl") (strL "/p") (strL "p") (strL "s") 0 (strL "h") .codex)
        (SessionData.codexData []) none 0 (strL "t")
        ⟨[], [], []⟩).1.session_summaries = ([] : List SummaryRow) ∧
    isFileProcessed (processSession (fun _ => ⟨[], [], [], []⟩)
        (SessionFile.mk (strL "/f.jsonl") (strL "/p") (strL "p") (strL "s") 0 (strL "h") .codex)
        (SessionData.codexData []) none 0 (strL "t")
        ⟨[], [], []⟩).1.processed_files (strL "/f.jsonl") (strL "h") = true := by
  have h := c10_no_code_changes_marked_not_stored (fun _ => ⟨[], [], [], []⟩)
    (SessionFile.mk (strL "/f.jsonl") (strL "/p") (strL "p") (strL "s") 0 (strL "h") .codex)
    (SessionData.codexData []) none 0 (strL "t") ⟨[], [], []⟩ (by decide)
  exact ⟨h.1.1, (h.2 (by decide)).2.1⟩
